import Mathlib

/-!
Verification development for the rustgit library (an in-memory git client).

The Rust sources are shallowly embedded: byte buffers become `List Nat`
(each element a byte value), Rust `&str` values become `List Char`,
machine `usize` arithmetic is `Nat` with explicit reduction `% 2 ^ 64`
and shift-amount masking `% 64` (the release-mode semantics of Rust's
shift operators), and fallible functions return `Except Error` or the
`Outcome` type below (which also has a `crash` case modelling a Rust
panic or divergence).  The SHA-1 digest used by the object store is
abstracted as an explicit function parameter `hashFn`; every theorem
about the store either quantifies over it or instantiates it with a
concrete function.
-/

namespace RustGit

/-- Error taxonomy of the library (lib.rs, `enum Error`); clone.rs
additionally uses a `NoSuchReference` variant, which is included here.
The `SshError` payload is dropped: no modelled code inspects it. -/
inductive Error where
  | sshError
  | dirtyWorkspace
  | invalidObject
  | pathError
  | missingObject
  | noSuchReference
  | gitProtocolError
  | invalidPackfile
  | mustForcePush
  | unsupportedByRemote
deriving DecidableEq, Repr

/-- Result of running a piece of Rust code: normal return, early return
with an `Error`, or a panic / divergence (`crash`). -/
inductive Outcome (α : Type) where
  | ok : α → Outcome α
  | err : Error → Outcome α
  | crash : Outcome α
deriving DecidableEq, Repr

def Outcome.bind {α β : Type} : Outcome α → (α → Outcome β) → Outcome β
  | .ok a, f => f a
  | .err e, _ => .err e
  | .crash, _ => .crash

instance : Monad Outcome where
  pure := Outcome.ok
  bind := Outcome.bind

/-- Rust `char::to_digit(radix)`: digits, then lowercase, then uppercase
letters, rejected when the value reaches the radix. -/
def charToDigit (radix : Nat) (c : Char) : Option Nat :=
  if 48 ≤ c.toNat ∧ c.toNat ≤ 57 then
    (if c.toNat - 48 < radix then some (c.toNat - 48) else none)
  else if 97 ≤ c.toNat ∧ c.toNat ≤ 122 then
    (if c.toNat - 87 < radix then some (c.toNat - 87) else none)
  else if 65 ≤ c.toNat ∧ c.toNat ≤ 90 then
    (if c.toNat - 55 < radix then some (c.toNat - 55) else none)
  else none

/-- Digit-accumulation loop of Rust `from_str_radix`, with the overflow
check against the integer type's maximal value `bound`. -/
def digitsValue (radix bound : Nat) : List Char → Nat → Option Nat
  | [], acc => some acc
  | c :: rest, acc =>
    match charToDigit radix c with
    | none => none
    | some d =>
      let acc' := acc * radix + d
      if acc' ≤ bound then digitsValue radix bound rest acc' else none

/-- Model of Rust `uN::from_str_radix` for an unsigned integer type with
maximal value `bound`: an optional `+` or `-` sign followed by at least
one digit; a `-` sign is only accepted when the value is zero. -/
def from_str_radix (radix bound : Nat) (s : List Char) : Option Nat :=
  match s with
  | [] => none
  | c :: rest =>
    if c = '+' then
      if rest = [] then none else digitsValue radix bound rest 0
    else if c = '-' then
      if rest = [] then none
      else
        match digitsValue radix bound rest 0 with
        | some 0 => some 0
        | _ => none
    else digitsValue radix bound s 0

/-- A 160-bit object identifier (objectstore.rs, `struct Hash`), viewed
through its 20-byte representation `Hash::to_bytes` (the `[u32; 5]`
native-endian packing round-trips through bytes, so the byte view is
faithful). -/
abbrev Hash := List Nat

def Hash.zero : Hash := List.replicate 20 0

/-- Well-formedness of a hash value: what the Rust type `[u32; 5]`
guarantees of the byte view. -/
def Hash.wf (h : Hash) : Prop := h.length = 20 ∧ ∀ b ∈ h, b < 256

instance (h : Hash) : Decidable (Hash.wf h) := by
  unfold Hash.wf; infer_instance

/-- Chunked parsing loop of `Hash::from_hex`: consecutive aligned pairs
of characters are parsed through `u8::from_str_radix(chunk, 16)`. -/
def Hash.fromHexPairs : List Char → Option (List Nat)
  | [] => some []
  | a :: b :: rest =>
    match from_str_radix 16 255 [a, b] with
    | some v => (Hash.fromHexPairs rest).map (fun l => v :: l)
    | none => none
  | [_] => none

/-- Hash::from_hex (objectstore.rs): requires length 40 and an ASCII
string, then parses twenty aligned 2-character chunks with
`u8::from_str_radix`. -/
def Hash.from_hex (s : List Char) : Option Hash :=
  if s.length = 40 ∧ ∀ c ∈ s, c.toNat < 128 then Hash.fromHexPairs s
  else none

/-- One byte of the `Display` implementation for `Hash`: the format
specifier 02x, two lowercase hexadecimal digits. -/
def byteHex (b : Nat) : List Char := [Nat.digitChar (b / 16), Nat.digitChar (b % 16)]

/-- The `Display` implementation for `Hash` (objectstore.rs): each of the
20 bytes formatted with 02x. -/
def Hash.display : Hash → List Char
  | [] => []
  | b :: rest => byteHex b ++ Hash.display rest

example : Hash.from_hex (Hash.display (1 :: List.replicate 19 0)) = some (1 :: List.replicate 19 0) := by decide

example : "tree".toList = ['t', 'r', 'e', 'e'] := rfl

/-! ## Packfile codec (packfile.rs) -/

instance {ε α : Type} [DecidableEq ε] [DecidableEq α] : DecidableEq (Except ε α) := fun a b =>
  match a, b with
  | .ok x, .ok y => if h : x = y then .isTrue (by rw [h]) else .isFalse (by simp [h])
  | .error x, .error y => if h : x = y then .isTrue (by rw [h]) else .isFalse (by simp [h])
  | .ok _, .error _ => .isFalse (by simp)
  | .error _, .ok _ => .isFalse (by simp)

/-- Object encodings in a packfile record header
(packfile.rs, `enum ObjectEncoding`). -/
inductive ObjectEncoding where
  | commit   -- 1
  | tree     -- 2
  | blob     -- 3
  | tag      -- 4
  | ofsDelta -- 6
  | refDelta -- 7
deriving DecidableEq, Repr

/-- TryFrom for `ObjectEncoding` (packfile.rs). -/
def ObjectEncoding.tryFrom : Nat → Except Error ObjectEncoding
  | 1 => .ok .commit
  | 2 => .ok .tree
  | 3 => .ok .blob
  | 4 => .ok .tag
  | 6 => .ok .ofsDelta
  | 7 => .ok .refDelta
  | _ => .error .invalidPackfile

/-- checked_shift_add (packfile.rs): adds one varint group of `src`
(masked by `src_mask`) into the accumulator `dst` at bit position
`shift`, returning `InvalidPackfile` when the shifted contribution loses
bits.  The usize shifts follow Rust release-mode semantics: the shift
amount is masked modulo the 64-bit word size, values wrap modulo
`2 ^ 64`.  Returns the new accumulator and the new shift. -/
def checked_shift_add (src dst shift shift_inc src_mask : Nat) : Except Error (Nat × Nat) :=
  let size_contrib := src &&& src_mask
  let shifted := (size_contrib <<< (shift % 64)) % 2 ^ 64
  let unshifted := shifted >>> (shift % 64)
  if unshifted ≠ size_contrib then .error .invalidPackfile
  else .ok (dst ||| shifted, shift + shift_inc)

/-- Loop of read_hdr_size (packfile.rs): continuation-coded varint, 7
bits per byte, little-endian.  Consumes from the front of the list and
returns the value plus the number of bytes consumed.  `fuel` only bounds
the recursion: each iteration consumes one byte, so the initial fuel
`delta.length + 1` can never run out (that case is mapped to an error it
can never produce). -/
def read_hdr_size_go (delta : List Nat) : Nat → Nat → Nat → Nat → Except Error (Nat × Nat)
  | 0, _, _, _ => .error .invalidPackfile
  | fuel + 1, i, size, shift =>
    match delta[i]? with
    | none => .error .invalidPackfile
    | some byte =>
      match checked_shift_add byte size shift 7 0x7f with
      | .error e => .error e
      | .ok (size', shift') =>
        if byte &&& 0x80 = 0 then .ok (size', i + 1)
        else read_hdr_size_go delta fuel (i + 1) size' shift'

/-- read_hdr_size (packfile.rs): reads one size varint of a delta header
starting at index `i`; returns the size and the index just past it. -/
def read_hdr_size (delta : List Nat) (i : Nat) : Except Error (Nat × Nat) :=
  read_hdr_size_go delta (delta.length + 1) i 0 0

/-- Rust slice indexing `l.get(a..b)`: defined exactly when
`a ≤ b ≤ l.length`. -/
def listSlice (l : List Nat) (a b : Nat) : Option (List Nat) :=
  if a ≤ b ∧ b ≤ l.length then some ((l.drop a).take (b - a)) else none

/-- The optional-byte gathering loops of the delta COPY instruction
(packfile.rs, reconstruct): for each flag bit `bit` of the instruction
byte that is set, consume one byte and or it into the accumulator at
byte position `bit - base` (base 0 for the four offset bytes, base 4 for
the three size bytes, exactly the source's loop indices).  Returns the
accumulated value and the index just past the consumed bytes. -/
def copy_field (delta : List Nat) (instruction base : Nat) : List Nat → Nat → Nat → Except Error (Nat × Nat)
  | [], i, acc => .ok (acc, i)
  | bit :: rest, i, acc =>
    if instruction &&& (1 <<< bit) ≠ 0 then
      match delta[i]? with
      | none => .error .invalidPackfile
      | some byte => copy_field delta instruction base rest (i + 1) (acc ||| (byte <<< (8 * (bit - base))))
    else copy_field delta instruction base rest i acc

/-- Instruction loop of reconstruct (packfile.rs).  `fuel` only bounds
the recursion: each iteration consumes at least the instruction byte, so
the initial fuel `delta.length + 1` can never run out (exhaustion with
bytes left is mapped to an error the Rust loop cannot produce). -/
def reconstruct_loop (delta src : List Nat) : Nat → Nat → List Nat → Except Error (List Nat)
  | fuel, i, dst =>
    match delta[i]? with
    | none => .ok dst
    | some instruction =>
      match fuel with
      | 0 => .error .invalidPackfile
      | fuel + 1 =>
        if instruction &&& 0x80 ≠ 0 then
          -- instruction: copy from base object
          match copy_field delta instruction 0 [0, 1, 2, 3] (i + 1) 0 with
          | .error e => .error e
          | .ok (offset, i₁) =>
            match copy_field delta instruction 4 [4, 5, 6] i₁ 0 with
            | .error e => .error e
            | .ok (size₀, i₂) =>
              let size := if size₀ = 0 then 0x1000 else size₀
              match listSlice src offset (offset + size) with
              | none => .error .invalidPackfile
              | some slice => reconstruct_loop delta src fuel i₂ (dst ++ slice)
        else
          -- instruction: push new data
          let len := instruction &&& 0x7f
          match listSlice delta (i + 1) (i + 1 + len) with
          | none => .error .invalidPackfile
          | some slice => reconstruct_loop delta src fuel (i + 1 + len) (dst ++ slice)

/-- reconstruct (packfile.rs): the delta VM.  Reads the source-size and
target-size varints from the head of the delta, then executes COPY/INSERT
instructions until the delta is exhausted. -/
def reconstruct (delta src : List Nat) : Except Error (List Nat) :=
  match read_hdr_size delta 0 with
  | .error e => .error e
  | .ok (_src_buf_size, i) =>
    match read_hdr_size delta i with
    | .error e => .error e
    | .ok (_dst_buf_size, i') => reconstruct_loop delta src (delta.length + 1) i' []

example : reconstruct [0, 0] [] = .ok [] := by decide
-- spec section 8, scenario 5: copy [2..6), insert "XY", copy [0..2)
example : reconstruct
    [10, 8, 0x91, 2, 4, 2, 88, 89, 0x90, 2]
    [97, 98, 99, 100, 101, 102, 103, 104, 105, 106]
    = .ok [99, 100, 101, 102, 88, 89, 97, 98] := by decide

/-- Result of PackfileReader::read_size over the current buffer contents:
either a complete header (encoding, size, bytes consumed), a protocol
error, or the loop would poll the transport for more bytes. -/
inductive SizeResult where
  | done (enc : ObjectEncoding) (size : Nat) (consumed : Nat)
  | needMore
  | fail (e : Error)
deriving DecidableEq, Repr

/-- Loop of PackfileReader::read_size (packfile.rs): first byte gives 3
type bits and 4 size bits, each following byte 7 size bits, all guarded
by checked_shift_add.  `fuel` only bounds the recursion (one byte per
iteration). -/
def read_size_go (buf : List Nat) : Nat → Nat → Nat → Nat → SizeResult
  | 0, _, _, _ => .needMore
  | fuel + 1, i, size, shift =>
    match buf[i]? with
    | none => .needMore
    | some byte =>
      let maskInc : Nat × Nat := if i = 0 then (0x0f, 4) else (0x7f, 7)
      match checked_shift_add byte size shift maskInc.2 maskInc.1 with
      | .error e => .fail e
      | .ok (size', shift') =>
        if byte &&& 0x80 = 0 then
          match buf[0]? with
          | none => .fail .invalidPackfile   -- unreachable: index 0 was readable
          | some b0 =>
            match ObjectEncoding.tryFrom ((b0 >>> 4) &&& 0b111) with
            | .error e => .fail e
            | .ok enc => .done enc size' (i + 1)
        else read_size_go buf fuel (i + 1) size' shift'

/-- PackfileReader::read_size (packfile.rs) over a buffer that already
holds the bytes of interest. -/
def read_size (buf : List Nat) : SizeResult :=
  read_size_go buf (buf.length + 1) 0 0 0

example : read_size [0x15] = .done .commit 5 1 := by decide
example : read_size [0x9f, 0x01] = .done .commit 31 2 := by decide

/-! ## Object store (objectstore.rs) -/

/-- Object types (objectstore.rs, `enum ObjectType`). -/
inductive ObjectType where
  | commit
  | tree
  | blob
  | tag
deriving DecidableEq, Repr

/-- A stored object (objectstore.rs, `struct Object`): type, content and
the delta hint (the zero hash standing for `None`). -/
structure StoreEntry where
  objType : ObjectType
  content : List Nat
  deltaHint : Hash
deriving DecidableEq, Repr

/-- Object::delta_hint (objectstore.rs). -/
def StoreEntry.deltaHintOpt (e : StoreEntry) : Option Hash :=
  if e.deltaHint = Hash.zero then none else some e.deltaHint

/-- The sharded identifier-to-object map (objectstore.rs,
`struct ObjectStore`), modelled as an association list: the shard of a
key is determined by the key, so the sharding is observationally a
single map. -/
abbrev ObjectStore := List (Hash × StoreEntry)

def os_get : ObjectStore → Hash → Option StoreEntry
  | [], _ => none
  | (k, v) :: rest, h => if k = h then some v else os_get rest h

def os_put : ObjectStore → Hash → StoreEntry → ObjectStore
  | [], h, e => [(h, e)]
  | (k, v) :: rest, h, e => if k = h then (h, e) :: rest else (k, v) :: os_put rest h e

/-- ObjectStore::has. -/
def os_has (s : ObjectStore) (h : Hash) : Bool := (os_get s h).isSome

/-- ObjectStore::remove: the removed entry (if any) and the shrunk store. -/
def os_remove : ObjectStore → Hash → Option StoreEntry × ObjectStore
  | [], _ => (none, [])
  | (k, v) :: rest, h =>
    if k = h then (some v, rest)
    else
      let r := os_remove rest h
      (r.1, (k, v) :: r.2)

/-- ObjectStore::insert_entry: hashes the entry's typed content and
stores the entry under that key (overwriting), returning the key.  The
SHA-1 digest is abstracted as `hashFn`. -/
def os_insert_entry (hashFn : ObjectType → List Nat → Hash) (s : ObjectStore)
    (e : StoreEntry) : Hash × ObjectStore :=
  let h := hashFn e.objType e.content
  (h, os_put s h e)

/-- ObjectStore::insert. -/
def os_insert (hashFn : ObjectType → List Nat → Hash) (s : ObjectStore)
    (t : ObjectType) (c : List Nat) (hint : Option Hash) : Hash × ObjectStore :=
  os_insert_entry hashFn s ⟨t, c, hint.getD Hash.zero⟩

/-- ObjectStore::get_as: content of the entry when present with the
expected type. -/
def os_get_as (s : ObjectStore) (h : Hash) (t : ObjectType) : Option (List Nat) :=
  match os_get s h with
  | some e => if e.objType = t then some e.content else none
  | none => none

/-! ## Packfile delta resolution (packfile.rs, read_all_objects) -/

/-- An object as produced by PackfileReader::next_object (packfile.rs):
the decompressed payload, with the source hash for a ref-delta.
`next_object` rejects `OfsDelta` with `InvalidPackfile` before returning,
so the record stream fed to the resolution loop never carries one. -/
inductive PFObj where
  | commit (content : List Nat)
  | tree (content : List Nat)
  | blob (content : List Nat)
  | tag (content : List Nat)
  | refDelta (delta : List Nat) (src : Hash)
deriving DecidableEq, Repr

/-- First phase of PackfileReader::read_all_objects (packfile.rs): each
record is inserted; a ref-delta whose source is present is reconstructed
and inserted with the delta hint set to the source, otherwise it is
pushed onto the pending list. -/
def rao_first_pass (hashFn : ObjectType → List Nat → Hash) :
    List PFObj → ObjectStore → List (List Nat × Hash) →
    Except Error (ObjectStore × List (List Nat × Hash))
  | [], store, pending => .ok (store, pending)
  | obj :: rest, store, pending =>
    match obj with
    | .refDelta delta h =>
      match os_get store h with
      | some src =>
        match reconstruct delta src.content with
        | .error e => .error e
        | .ok dst =>
          rao_first_pass hashFn rest (os_insert hashFn store src.objType dst (some h)).2 pending
      | none => rao_first_pass hashFn rest store (pending ++ [(delta, h)])
    | .commit c => rao_first_pass hashFn rest (os_insert hashFn store .commit c none).2 pending
    | .tree c => rao_first_pass hashFn rest (os_insert hashFn store .tree c none).2 pending
    | .blob c => rao_first_pass hashFn rest (os_insert hashFn store .blob c none).2 pending
    | .tag c => rao_first_pass hashFn rest (os_insert hashFn store .tag c none).2 pending

/-- The inner `for` scan of the deferred-delta loop (packfile.rs lines
253-264): the first pending entry whose source is present is
reconstructed and inserted (errors from `reconstruct` propagate), then
the scan stops. -/
def rao_scan (hashFn : ObjectType → List Nat → Hash) (store : ObjectStore) :
    List (List Nat × Hash) → Except Error ObjectStore
  | [] => .ok store
  | (delta, h) :: rest =>
    match os_get store h with
    | some src =>
      match reconstruct delta src.content with
      | .error e => .error e
      | .ok dst => .ok (os_insert hashFn store src.objType dst (some h)).2
    | none => rao_scan hashFn store rest

/-- PackfileReader::read_all_objects (packfile.rs) applied to the decoded
record stream: the first pass, then the deferred-delta loop.  In the
source, after the inner `for` scan (whether or not it resolved an
entry) control unconditionally reaches `return Err(InvalidPackfile)`,
so a non-empty pending list always ends in that error. -/
def read_all_objects (hashFn : ObjectType → List Nat → Hash)
    (objs : List PFObj) (store : ObjectStore) : Except Error ObjectStore :=
  match rao_first_pass hashFn objs store [] with
  | .error e => .error e
  | .ok (store', pending) =>
    if pending.isEmpty then .ok store'
    else
      match rao_scan hashFn store' pending with
      | .error e => .error e
      | .ok _ => .error .invalidPackfile

def constHashFn : ObjectType → List Nat → Hash := fun _ _ => 1 :: List.replicate 19 0

/-- C1: a packfile stream whose single ref-delta is deferred (its source
blob arrives later in the same pass) makes `read_all_objects` return
`InvalidPackfile` even though the deferred pass then finds the source
and reconstructs the delta successfully.  The spec's retried-pass /
zero-progress behaviour is absent: the error return is reached
unconditionally after the first scan. -/
theorem read_all_objects_fails_despite_available_source :
    read_all_objects constHashFn
      [.refDelta [0, 0] (1 :: List.replicate 19 0), .blob []] []
      = .error .invalidPackfile := by decide

/-- C2: `reconstruct` substitutes 0x1000 (not 0x10000) for an assembled
COPY size of zero: on a 4096-byte source, a COPY instruction with no
offset and no size bytes succeeds and copies exactly 4096 bytes; with
the claimed 0x10000 substitution the copy range would be out of bounds
of this source and the call would fail. -/
theorem reconstruct_copy_size_zero_is_0x1000 :
    reconstruct [0x80, 0x20, 0x80, 0x20, 0x80] (List.replicate 4096 0)
      = .ok (List.replicate 4096 0) := by
  have hgen : ∀ src : List Nat, src.length = 4096 →
      reconstruct [0x80, 0x20, 0x80, 0x20, 0x80] src = .ok src := by
    intro src h
    have h1 : read_hdr_size [0x80, 0x20, 0x80, 0x20, 0x80] 0 = .ok (4096, 2) := by decide
    have h2 : read_hdr_size [0x80, 0x20, 0x80, 0x20, 0x80] 2 = .ok (4096, 4) := by decide
    have hcf1 : copy_field [0x80, 0x20, 0x80, 0x20, 0x80] 0x80 0 [0, 1, 2, 3] 5 0 = .ok (0, 5) := by decide
    have hcf2 : copy_field [0x80, 0x20, 0x80, 0x20, 0x80] 0x80 4 [4, 5, 6] 5 0 = .ok (0, 5) := by decide
    have hsl : listSlice src 0 (0 + 0x1000) = some src := by simp [listSlice, h]
    have hsl' : listSlice src 0 0x1000 = some src := by simp [listSlice, h]
    simp only [reconstruct, h1, h2]
    norm_num
    rw [reconstruct_loop.eq_def]
    norm_num [hcf1, hcf2, hsl, hsl']
    rw [reconstruct_loop.eq_def]
    norm_num
  exact hgen _ (List.length_replicate 4096 0)

/-- C3: a delta consisting of a zero-length INSERT instruction under a
declared target size of 5 is accepted: `reconstruct` returns an empty
buffer, neither rejecting the reserved zero-length INSERT nor checking
the final output length against the declared target size. -/
theorem reconstruct_accepts_zero_insert_and_size_mismatch :
    reconstruct [0, 5, 0] [] = .ok [] := by decide

/-- C6: a size varint whose tenth continuation byte pushes the shift past
the 64-bit word size is mis-accumulated instead of rejected: the true
encoded value is 15 + 2^60 + 2^67 (overflowing 64 bits), but `read_size`
returns 15 + 2^60 with no error: the overflow check is performed with
the masked shift amount (67 % 64 = 3), so the last byte's contribution
lands on bit 3 and is absorbed by the bitwise or. -/
theorem read_size_mis_accumulates_past_word_size :
    read_size [0x9f, 0x80, 0x80, 0x80, 0x80, 0x80, 0x80, 0x80, 0x80, 0x81, 0x01]
      = .done .commit (2 ^ 60 + 15) 11 := by decide

/-! ## UTF-8 (the Rust `str` / byte-buffer boundary) -/

/-- UTF-8 encoding of one character (what Rust emits when writing a
`str` into a byte buffer). -/
def utf8EncodeChar (c : Char) : List Nat :=
  if c.toNat < 0x80 then [c.toNat]
  else if c.toNat < 0x800 then [0xc0 + c.toNat / 64, 0x80 + c.toNat % 64]
  else if c.toNat < 0x10000 then
    [0xe0 + c.toNat / 4096, 0x80 + c.toNat / 64 % 64, 0x80 + c.toNat % 64]
  else
    [0xf0 + c.toNat / 262144, 0x80 + c.toNat / 4096 % 64, 0x80 + c.toNat / 64 % 64,
      0x80 + c.toNat % 64]

/-- UTF-8 encoding of a string. -/
def utf8Encode : List Char → List Nat
  | [] => []
  | c :: cs => utf8EncodeChar c ++ utf8Encode cs

/-- Decoding of a 2-byte UTF-8 sequence after its leading byte. -/
def utf8Two (b0 : Nat) : List Nat → Option (Char × List Nat)
  | b1 :: rest =>
    if 0x80 ≤ b1 ∧ b1 < 0xc0 then some (Char.ofNat ((b0 - 0xc0) * 64 + (b1 - 0x80)), rest)
    else none
  | [] => none

/-- Decoding of a 3-byte UTF-8 sequence after its leading byte, with the
overlong and surrogate checks. -/
def utf8Three (b0 : Nat) : List Nat → Option (Char × List Nat)
  | b1 :: b2 :: rest =>
    if 0x80 ≤ b1 ∧ b1 < 0xc0 ∧ 0x80 ≤ b2 ∧ b2 < 0xc0 then
      let v := (b0 - 0xe0) * 4096 + (b1 - 0x80) * 64 + (b2 - 0x80)
      if 0x800 ≤ v ∧ ¬ (0xd800 ≤ v ∧ v < 0xe000) then some (Char.ofNat v, rest) else none
    else none
  | _ => none

/-- Decoding of a 4-byte UTF-8 sequence after its leading byte, with the
overlong and range checks. -/
def utf8Four (b0 : Nat) : List Nat → Option (Char × List Nat)
  | b1 :: b2 :: b3 :: rest =>
    if 0x80 ≤ b1 ∧ b1 < 0xc0 ∧ 0x80 ≤ b2 ∧ b2 < 0xc0 ∧ 0x80 ≤ b3 ∧ b3 < 0xc0 then
      let v := (b0 - 0xf0) * 262144 + (b1 - 0x80) * 4096 + (b2 - 0x80) * 64 + (b3 - 0x80)
      if 0x10000 ≤ v ∧ v < 0x110000 then some (Char.ofNat v, rest) else none
    else none
  | _ => none

/-- Strict decoding of one UTF-8 character: the character and the
remaining bytes.  Rejects stray continuation bytes (0x80-0xc1 leads),
overlong forms, surrogates and values past the Unicode range, as Rust's
`core::str::from_utf8` does. -/
def utf8DecodeChar : List Nat → Option (Char × List Nat)
  | [] => none
  | b0 :: rest =>
    if b0 < 0x80 then some (Char.ofNat b0, rest)
    else if b0 < 0xc2 then none
    else if b0 < 0xe0 then utf8Two b0 rest
    else if b0 < 0xf0 then utf8Three b0 rest
    else if b0 < 0xf5 then utf8Four b0 rest
    else none

/-- Decoding loop.  `fuel` only bounds the recursion: each character
consumes at least one byte, so initial fuel `l.length` can never run
out. -/
def utf8DecodeF : Nat → List Nat → Option (List Char)
  | fuel, l =>
    match l with
    | [] => some []
    | b0 :: rest =>
      match fuel with
      | 0 => none
      | fuel + 1 =>
        match utf8DecodeChar (b0 :: rest) with
        | none => none
        | some (c, rest') => (utf8DecodeF fuel rest').map (fun cs => c :: cs)

/-- Model of Rust `core::str::from_utf8`. -/
def utf8Decode (l : List Nat) : Option (List Char) := utf8DecodeF l.length l

theorem char_toNat_valid (c : Char) :
    c.toNat < 0xd800 ∨ (0xdfff < c.toNat ∧ c.toNat < 0x110000) := c.valid

theorem utf8EncodeChar_ne_nil (c : Char) : utf8EncodeChar c ≠ [] := by
  unfold utf8EncodeChar
  split_ifs <;> simp

/-- Decoding one character inverts encoding it. -/
theorem utf8DecodeChar_encodeChar (c : Char) (bs : List Nat) :
    utf8DecodeChar (utf8EncodeChar c ++ bs) = some (c, bs) := by
  have hv := char_toNat_valid c
  have hofn : Char.ofNat c.toNat = c := Char.ofNat_toNat c
  unfold utf8EncodeChar
  rcases Nat.lt_or_ge c.toNat 0x80 with h1 | h1
  · rw [if_pos h1]
    unfold utf8DecodeChar
    simp only [List.cons_append, List.nil_append]
    rw [if_pos h1, hofn]
  · rcases Nat.lt_or_ge c.toNat 0x800 with h2 | h2
    · have hid : (0xc0 + c.toNat / 64 - 0xc0) * 64 + (0x80 + c.toNat % 64 - 0x80) = c.toNat := by
        have := Nat.div_add_mod c.toNat 64
        have : c.toNat % 64 < 64 := Nat.mod_lt _ (by omega)
        omega
      have hq : 2 ≤ c.toNat / 64 ∧ c.toNat / 64 < 32 := by
        constructor <;> omega
      rw [if_neg (by omega), if_pos h2]
      unfold utf8DecodeChar utf8Two
      simp only [List.cons_append, List.nil_append]
      repeat rw [if_neg (show ¬_ by omega)]
      rw [if_pos (by omega)]
      have hb1 : 0x80 ≤ 0x80 + c.toNat % 64 ∧ 0x80 + c.toNat % 64 < 0xc0 := by
        have : c.toNat % 64 < 64 := Nat.mod_lt _ (by omega)
        omega
      rw [if_pos hb1, hid, hofn]
    · rcases Nat.lt_or_ge c.toNat 0x10000 with h3 | h3
      · have hm1 : c.toNat % 64 < 64 := Nat.mod_lt _ (by omega)
        have hm2 : c.toNat / 64 % 64 < 64 := Nat.mod_lt _ (by omega)
        have hdm1 := Nat.div_add_mod c.toNat 64
        have hdm2 := Nat.div_add_mod (c.toNat / 64) 64
        have hdd : c.toNat / 64 / 64 = c.toNat / 4096 := by rw [Nat.div_div_eq_div_mul]
        have hid : (0xe0 + c.toNat / 4096 - 0xe0) * 4096 + (0x80 + c.toNat / 64 % 64 - 0x80) * 64
            + (0x80 + c.toNat % 64 - 0x80) = c.toNat := by omega
        have hq : c.toNat / 4096 < 16 := by omega
        repeat rw [if_neg (show ¬_ by omega)]
        rw [if_pos h3]
        unfold utf8DecodeChar utf8Three
        simp only [List.cons_append, List.nil_append]
        repeat rw [if_neg (show ¬_ by omega)]
        rw [if_pos (by omega)]
        rw [if_pos (by refine ⟨by omega, by omega, by omega, by omega⟩)]
        simp only [hid]
        rw [if_pos (by omega), hofn]
      · have hm1 : c.toNat % 64 < 64 := Nat.mod_lt _ (by omega)
        have hm2 : c.toNat / 64 % 64 < 64 := Nat.mod_lt _ (by omega)
        have hm3 : c.toNat / 4096 % 64 < 64 := Nat.mod_lt _ (by omega)
        have hdm1 := Nat.div_add_mod c.toNat 64
        have hdm2 := Nat.div_add_mod (c.toNat / 64) 64
        have hdm3 := Nat.div_add_mod (c.toNat / 4096) 64
        have hdd : c.toNat / 64 / 64 = c.toNat / 4096 := by rw [Nat.div_div_eq_div_mul]
        have hdd2 : c.toNat / 4096 / 64 = c.toNat / 262144 := by rw [Nat.div_div_eq_div_mul]
        have hub : c.toNat < 0x110000 := by omega
        have hq : c.toNat / 262144 < 5 := by omega
        have hid : (0xf0 + c.toNat / 262144 - 0xf0) * 262144
            + (0x80 + c.toNat / 4096 % 64 - 0x80) * 4096
            + (0x80 + c.toNat / 64 % 64 - 0x80) * 64 + (0x80 + c.toNat % 64 - 0x80) = c.toNat := by
          omega
        repeat rw [if_neg (show ¬_ by omega)]
        unfold utf8DecodeChar utf8Four
        simp only [List.cons_append, List.nil_append]
        repeat rw [if_neg (show ¬_ by omega)]
        rw [if_pos (by omega)]
        rw [if_pos (by refine ⟨by omega, by omega, by omega, by omega, by omega, by omega⟩)]
        simp only [hid]
        rw [if_pos (by omega), hofn]

theorem utf8DecodeF_cons (f b0 : Nat) (rest : List Nat) :
    utf8DecodeF (f + 1) (b0 :: rest)
      = match utf8DecodeChar (b0 :: rest) with
        | none => none
        | some p => (utf8DecodeF f p.2).map (fun cs => p.1 :: cs) := by
  rw [utf8DecodeF]
  rcases utf8DecodeChar (b0 :: rest) with _ | ⟨c, r⟩ <;> rfl

theorem utf8DecodeF_encode : ∀ (cs : List Char) (fuel : Nat),
    (utf8Encode cs).length ≤ fuel → utf8DecodeF fuel (utf8Encode cs) = some cs := by
  intro cs
  induction cs with
  | nil => intro fuel _; simp [utf8Encode, utf8DecodeF]
  | cons c cs ih =>
    intro fuel hf
    rw [utf8Encode] at hf ⊢
    have hne := utf8EncodeChar_ne_nil c
    rcases henc : utf8EncodeChar c with _ | ⟨b, bs⟩
    · exact absurd henc hne
    · rw [henc] at hf
      have h1 : 1 + (utf8Encode cs).length ≤ fuel := by
        simp only [List.length_append, List.length_cons] at hf
        omega
      rcases fuel with _ | fuel
      · omega
      · rw [List.cons_append, utf8DecodeF_cons, ← List.cons_append, ← henc,
          utf8DecodeChar_encodeChar]
        show (utf8DecodeF fuel (utf8Encode cs)).map (fun l => c :: l) = some (c :: cs)
        rw [ih fuel (by omega)]
        rfl

/-- Decoding inverts encoding. -/
theorem utf8Decode_encode (cs : List Char) : utf8Decode (utf8Encode cs) = some cs :=
  utf8DecodeF_encode cs (utf8Encode cs).length (Nat.le_refl _)

/-! ## Pkt-line framing (protocol.rs, GitProtocol::read_line) -/

/-- Result of one iteration of `GitProtocol::read_line` over the current
receive buffer: either a poll of the transport for more bytes
(`needMore`), a framing error, or a line result together with the number
of buffer bytes the line consumes (the source records it in `to_skip`
and drains it on the next call). -/
inductive LineResult where
  | needMore
  | line (data : Option (List Nat)) (consumed : Nat)
  | fail (e : Error)
deriving DecidableEq, Repr

def USIZE_MAX : Nat := 2 ^ 64 - 1

/-- The `parse_len` helper of GitProtocol::read_line (protocol.rs):
`from_utf8` then `usize::from_str_radix(_, 16)`. -/
def parse_len (bytes : List Nat) : Option Nat :=
  (utf8Decode bytes).bind (fun hex_len => from_str_radix 16 USIZE_MAX hex_len)

/-- GitProtocol::read_line (protocol.rs) over the receive buffer: the
first 4 bytes are read as ASCII hex through `parse_len`; a declared
length below 4 is reported as "no line" consuming the 4 header bytes;
otherwise the line's `len - 4` payload bytes are returned and `len`
bytes are consumed. -/
def read_line_model (buf : List Nat) : LineResult :=
  if 4 ≤ buf.length then
    match parse_len (buf.take 4) with
    | none => .fail .gitProtocolError
    | some len =>
      if len < 4 then .line none 4
      else if len ≤ buf.length then .line (some ((buf.take len).drop 4)) len
      else .needMore
  else .needMore

example : read_line_model (utf8Encode "0006ab".toList) = .line (some [97, 98]) 6 := by decide
example : read_line_model (utf8Encode "0000".toList) = .line none 4 := by decide

/-! ## Digit and hex-formatting lemmas -/

theorem charToDigit_digitChar : ∀ d : Nat, d < 16 → charToDigit 16 (Nat.digitChar d) = some d := by
  decide

theorem digitChar_ne_plus : ∀ d : Nat, d < 16 → Nat.digitChar d ≠ '+' := by decide

theorem digitChar_ne_minus : ∀ d : Nat, d < 16 → Nat.digitChar d ≠ '-' := by decide

theorem digitChar_ascii : ∀ d : Nat, d < 16 → (Nat.digitChar d).toNat < 128 := by decide

/-- Unfolding step of `digitsValue` at a character with a known digit
value. -/
theorem digitsValue_cons_digit (radix bound : Nat) (c : Char) (rest : List Char) (acc d : Nat)
    (hd : charToDigit radix c = some d) :
    digitsValue radix bound (c :: rest) acc
      = if acc * radix + d ≤ bound then digitsValue radix bound rest (acc * radix + d)
        else none := by
  rw [digitsValue, hd]

/-- Unfolding of `from_str_radix` at a non-empty string. -/
theorem from_str_radix_cons (radix bound : Nat) (c : Char) (rest : List Char) :
    from_str_radix radix bound (c :: rest)
      = if c = '+' then (if rest = [] then none else digitsValue radix bound rest 0)
        else if c = '-' then
          (if rest = [] then none
           else
             match digitsValue radix bound rest 0 with
             | some 0 => some 0
             | _ => none)
        else digitsValue radix bound (c :: rest) 0 := rfl

/-- from_str_radix parses the two digits emitted for one byte by the
hash `Display` implementation back to that byte. -/
theorem from_str_radix_byteHex (b : Nat) (hb : b < 256) :
    from_str_radix 16 255 (byteHex b) = some b := by
  have h1 : b / 16 < 16 := by omega
  have h2 : b % 16 < 16 := Nat.mod_lt _ (by omega)
  have e0 := Nat.div_add_mod b 16
  unfold byteHex
  rw [from_str_radix_cons, if_neg (digitChar_ne_plus _ h1), if_neg (digitChar_ne_minus _ h1)]
  rw [digitsValue_cons_digit _ _ _ _ _ _ (charToDigit_digitChar _ h1), if_pos (by omega)]
  rw [digitsValue_cons_digit _ _ _ _ _ _ (charToDigit_digitChar _ h2), if_pos (by omega)]
  rw [digitsValue]
  congr 1
  omega

/-- The 4 lowercase hex digits of a 16-bit value, as emitted by the 04x
format specifier. -/
def natHex4 (n : Nat) : List Char :=
  [Nat.digitChar (n / 4096 % 16), Nat.digitChar (n / 256 % 16),
    Nat.digitChar (n / 16 % 16), Nat.digitChar (n % 16)]

theorem from_str_radix_natHex4 (n : Nat) (h : n < 0x10000) :
    from_str_radix 16 USIZE_MAX (natHex4 n) = some n := by
  have h3 : n / 4096 % 16 = n / 4096 := Nat.mod_eq_of_lt (by omega)
  have e0 := Nat.div_add_mod n 16
  have e1 := Nat.div_add_mod (n / 16) 16
  have e2 := Nat.div_add_mod (n / 256) 16
  have d1 : n / 16 / 16 = n / 256 := by rw [Nat.div_div_eq_div_mul]
  have d2 : n / 256 / 16 = n / 4096 := by rw [Nat.div_div_eq_div_mul]
  have hlt0 : n % 16 < 16 := Nat.mod_lt _ (by omega)
  have hlt1 : n / 16 % 16 < 16 := Nat.mod_lt _ (by omega)
  have hlt2 : n / 256 % 16 < 16 := Nat.mod_lt _ (by omega)
  have hlt3 : n / 4096 < 16 := by omega
  have hmax : USIZE_MAX = 2 ^ 64 - 1 := rfl
  unfold natHex4
  rw [h3]
  rw [from_str_radix_cons, if_neg (digitChar_ne_plus _ hlt3), if_neg (digitChar_ne_minus _ hlt3)]
  rw [digitsValue_cons_digit _ _ _ _ _ _ (charToDigit_digitChar _ hlt3), if_pos (by omega)]
  rw [digitsValue_cons_digit _ _ _ _ _ _ (charToDigit_digitChar _ hlt2), if_pos (by omega)]
  rw [digitsValue_cons_digit _ _ _ _ _ _ (charToDigit_digitChar _ hlt1), if_pos (by omega)]
  rw [digitsValue_cons_digit _ _ _ _ _ _ (charToDigit_digitChar _ hlt0), if_pos (by omega)]
  rw [digitsValue]
  congr 1
  omega

/-! ## Pkt-line claim lemmas -/

/-- read_line_model once the length word is known to parse. -/
theorem read_line_model_parsed (buf : List Nat) (len : Nat)
    (h4 : 4 ≤ buf.length) (hp : parse_len (buf.take 4) = some len) :
    read_line_model buf
      = if len < 4 then .line none 4
        else if len ≤ buf.length then .line (some ((buf.take len).drop 4)) len
        else .needMore := by
  rw [read_line_model, if_pos h4, hp]

theorem parse_len_of_header (hdr : List Char) (len : Nat) (rest : List Nat)
    (h4 : (utf8Encode hdr).length = 4)
    (hp : from_str_radix 16 USIZE_MAX hdr = some len) :
    parse_len ((utf8Encode hdr ++ rest).take 4) = some len := by
  have htake : (utf8Encode hdr ++ rest).take 4 = utf8Encode hdr := by
    rw [← h4, List.take_left]
  rw [htake, parse_len, utf8Decode_encode]
  simpa using hp

theorem header_buf_le (hdr : List Char) (rest : List Nat) (h4 : (utf8Encode hdr).length = 4) :
    (utf8Encode hdr ++ rest).length = 4 + rest.length := by
  rw [List.length_append, h4]

/-- A header declaring a length below 4 yields "no line" and consumes
the 4 header bytes. -/
theorem read_line_model_control (hdr : List Char) (len : Nat) (rest : List Nat)
    (h4 : (utf8Encode hdr).length = 4)
    (hp : from_str_radix 16 USIZE_MAX hdr = some len) (hlt : len < 4) :
    read_line_model (utf8Encode hdr ++ rest) = .line none 4 := by
  rw [read_line_model_parsed _ len (by rw [header_buf_le _ _ h4]; omega)
    (parse_len_of_header _ _ _ h4 hp)]
  rw [if_pos hlt]

/-- A header declaring a length `len` with `4 ≤ len` and enough buffered
bytes yields the `len - 4` payload bytes, consuming exactly `len`. -/
theorem read_line_model_data (hdr : List Char) (len : Nat) (rest : List Nat)
    (h4 : (utf8Encode hdr).length = 4)
    (hp : from_str_radix 16 USIZE_MAX hdr = some len)
    (hge : 4 ≤ len) (hle : len ≤ 4 + rest.length) :
    read_line_model (utf8Encode hdr ++ rest) = .line (some (rest.take (len - 4))) len := by
  rw [read_line_model_parsed _ len (by rw [header_buf_le _ _ h4]; omega)
    (parse_len_of_header _ _ _ h4 hp)]
  rw [if_neg (by omega), if_pos (by rw [header_buf_le _ _ h4]; omega)]
  have hdata : ((utf8Encode hdr ++ rest).take len).drop 4 = rest.take (len - 4) := by
    rw [List.drop_take len 4 (utf8Encode hdr ++ rest), List.drop_left' h4]
  rw [hdata]

/-- C7 counterexample: the length words 0001, 0002 and 0003 are all
decoded exactly like 0000 — as "no line", consuming 4 bytes — so the
declared lengths 1-3 are not rejected as invalid, and delimiter /
response-end are indistinguishable from flush in the reader. -/
theorem read_line_small_lengths_flush_like :
    read_line_model (utf8Encode "0001".toList) = .line none 4 ∧
    read_line_model (utf8Encode "0002".toList) = .line none 4 ∧
    read_line_model (utf8Encode "0003".toList) = .line none 4 ∧
    read_line_model (utf8Encode "0000".toList) = .line none 4 := by decide

/-- C7 as amended: every length word 0-3 (so flush, delimiter,
response-end, and the invalid 3) decodes as "no line", never as data,
consuming exactly the 4 header bytes; a length word `n` with
`4 ≤ n < 0x10000` and enough buffered bytes decodes as a data line of
the following `n - 4` payload bytes, consuming exactly `n` bytes. -/
theorem read_line_framing :
    (∀ rest : List Nat, read_line_model (utf8Encode "0000".toList ++ rest) = .line none 4) ∧
    (∀ rest : List Nat, read_line_model (utf8Encode "0001".toList ++ rest) = .line none 4) ∧
    (∀ rest : List Nat, read_line_model (utf8Encode "0002".toList ++ rest) = .line none 4) ∧
    (∀ rest : List Nat, read_line_model (utf8Encode "0003".toList ++ rest) = .line none 4) ∧
    (∀ (n : Nat) (rest : List Nat), 4 ≤ n → n < 0x10000 → n ≤ 4 + rest.length →
      read_line_model (utf8Encode (natHex4 n) ++ rest) = .line (some (rest.take (n - 4))) n) := by
  refine ⟨?_, ?_, ?_, ?_, ?_⟩
  · intro rest
    exact read_line_model_control "0000".toList 0 rest (by decide) (by decide) (by omega)
  · intro rest
    exact read_line_model_control "0001".toList 1 rest (by decide) (by decide) (by omega)
  · intro rest
    exact read_line_model_control "0002".toList 2 rest (by decide) (by decide) (by omega)
  · intro rest
    exact read_line_model_control "0003".toList 3 rest (by decide) (by decide) (by omega)
  · intro n rest hge hlt hle
    have h4 : (utf8Encode (natHex4 n)).length = 4 := by
      have a0 : n % 16 < 16 := Nat.mod_lt _ (by omega)
      have a1 : n / 16 % 16 < 16 := Nat.mod_lt _ (by omega)
      have a2 : n / 256 % 16 < 16 := Nat.mod_lt _ (by omega)
      have a3 : n / 4096 % 16 < 16 := Nat.mod_lt _ (by omega)
      simp only [natHex4, utf8Encode, utf8EncodeChar,
        if_pos (digitChar_ascii _ a0), if_pos (digitChar_ascii _ a1),
        if_pos (digitChar_ascii _ a2), if_pos (digitChar_ascii _ a3)]
      rfl
    exact read_line_model_data (natHex4 n) n rest h4 (from_str_radix_natHex4 n hlt) hge hle

/-- Witness for read_line_framing at concrete inputs. -/
theorem read_line_framing_w :
    read_line_model (utf8Encode "0001".toList ++ [65, 66]) = .line none 4 ∧
    read_line_model (utf8Encode (natHex4 5) ++ [65, 66]) = .line (some [65]) 5 := by
  constructor
  · exact read_line_framing.2.1 [65, 66]
  · have h := read_line_framing.2.2.2.2 5 [65, 66] (by omega) (by omega) (by simp)
    simpa using h

/-! ## Hex identity claims (objectstore.rs, Hash::from_hex and Display) -/

/-- A hexadecimal digit character: what the spec means by characters a
40-character identifier string may contain. -/
def isHexDigitChar (c : Char) : Prop :=
  (48 ≤ c.toNat ∧ c.toNat ≤ 57) ∨ (97 ≤ c.toNat ∧ c.toNat ≤ 102) ∨ (65 ≤ c.toNat ∧ c.toNat ≤ 70)

instance (c : Char) : Decidable (isHexDigitChar c) := by
  unfold isHexDigitChar; infer_instance

theorem charToDigit_eq_none (c : Char) (hc : ¬ isHexDigitChar c) : charToDigit 16 c = none := by
  unfold isHexDigitChar at hc
  unfold charToDigit
  split_ifs <;> first | rfl | omega

theorem charToDigit_lt (radix : Nat) (c : Char) (d : Nat) (h : charToDigit radix c = some d) :
    d < radix := by
  unfold charToDigit at h
  split_ifs at h <;> simp_all

/-- A 2-character chunk containing a character that is not a hex digit
and not a sign fails `u8::from_str_radix`. -/
theorem from_str_radix_pair_bad (a b : Char)
    (hbad : (¬ isHexDigitChar a ∧ a ≠ '+' ∧ a ≠ '-') ∨ (¬ isHexDigitChar b ∧ b ≠ '+' ∧ b ≠ '-')) :
    from_str_radix 16 255 [a, b] = none := by
  have hbne : (¬ isHexDigitChar b ∧ b ≠ '+' ∧ b ≠ '-') → charToDigit 16 b = none :=
    fun hb => charToDigit_eq_none b hb.1
  rw [from_str_radix_cons]
  by_cases ha : a = '+'
  · rw [if_pos ha]
    rcases hbad with hA | hB
    · exact absurd ha hA.2.1
    · rw [if_neg (by simp), digitsValue, charToDigit_eq_none b hB.1]
  · rw [if_neg ha]
    by_cases ha' : a = '-'
    · rw [if_pos ha']
      rcases hbad with hA | hB
      · exact absurd ha' hA.2.2
      · rw [if_neg (by simp), digitsValue, charToDigit_eq_none b hB.1]
    · rw [if_neg ha']
      rcases hbad with hA | hB
      · rw [digitsValue, charToDigit_eq_none a hA.1]
      · cases hd : charToDigit 16 a with
        | none => rw [digitsValue, hd]
        | some d =>
          have hd16 : d < 16 := charToDigit_lt 16 a d hd
          rw [digitsValue_cons_digit _ _ _ _ _ _ hd, if_pos (by omega),
            digitsValue, charToDigit_eq_none b hB.1]

/-- The chunk loop fails whenever any character is neither a hex digit
nor a sign. -/
theorem fromHexPairs_bad : ∀ s : List Char,
    (∃ c ∈ s, ¬ isHexDigitChar c ∧ c ≠ '+' ∧ c ≠ '-') → Hash.fromHexPairs s = none := by
  intro s
  induction s using Hash.fromHexPairs.induct with
  | case1 => intro h; simp at h
  | case2 a b rest v hv ih =>
    intro hbad
    rcases hbad with ⟨c, hmem, hc⟩
    rcases hmem with _ | ⟨_, hmem⟩
    · rw [Hash.fromHexPairs, from_str_radix_pair_bad a b (Or.inl hc)]
    · rcases hmem with _ | ⟨_, hmem⟩
      · rw [Hash.fromHexPairs, from_str_radix_pair_bad a b (Or.inr hc)]
      · rw [Hash.fromHexPairs, hv, ih ⟨c, hmem, hc⟩]
        rfl
  | case3 a b rest hv =>
    intro _
    rw [Hash.fromHexPairs, hv]
  | case4 x =>
    intro _
    rfl

theorem display_length (h : Hash) : (Hash.display h).length = 2 * h.length := by
  induction h with
  | nil => rfl
  | cons b t ih =>
    rw [Hash.display, List.length_append, ih, List.length_cons]
    simp [byteHex]
    omega

theorem display_ascii (h : Hash) (hb : ∀ b ∈ h, b < 256) :
    ∀ c ∈ Hash.display h, c.toNat < 128 := by
  induction h with
  | nil => intro c hc; simp [Hash.display] at hc
  | cons b t ih =>
    intro c hc
    rw [Hash.display] at hc
    rcases List.mem_append.mp hc with h1 | h2
    · have hb256 : b < 256 := hb b (List.mem_cons_self b t)
      have e1 : b / 16 < 16 := by omega
      have e2 : b % 16 < 16 := Nat.mod_lt _ (by omega)
      rcases h1 with _ | ⟨_, h1⟩
      · exact digitChar_ascii _ e1
      · rcases h1 with _ | ⟨_, h1⟩
        · exact digitChar_ascii _ e2
        · cases h1
    · exact ih (fun x hx => hb x (List.mem_cons_of_mem b hx)) c h2

theorem fromHexPairs_display (h : Hash) (hb : ∀ b ∈ h, b < 256) :
    Hash.fromHexPairs (Hash.display h) = some h := by
  induction h with
  | nil => rfl
  | cons b t ih =>
    have hb256 : b < 256 := hb b (List.mem_cons_self b t)
    rw [Hash.display]
    show Hash.fromHexPairs (Nat.digitChar (b / 16) :: Nat.digitChar (b % 16) :: Hash.display t)
      = some (b :: t)
    rw [Hash.fromHexPairs]
    have hpair : from_str_radix 16 255 [Nat.digitChar (b / 16), Nat.digitChar (b % 16)]
        = some b := from_str_radix_byteHex b hb256
    rw [hpair, ih (fun x hx => hb x (List.mem_cons_of_mem b hx))]
    rfl

/-- Boolean prefix test. -/
def isPre : List Char → List Char → Bool
  | [], _ => true
  | a :: as, b :: bs => decide (a = b) && isPre as bs
  | _ :: _, [] => false

/-- Rust str::split_once with a string pattern: split at the first
occurrence of the pattern. -/
def splitOnceSub (pat : List Char) : List Char → Option (List Char × List Char)
  | [] => if pat = [] then some ([], []) else none
  | c :: rest =>
    if isPre pat (c :: rest) then some ([], (c :: rest).drop pat.length)
    else
      match splitOnceSub pat rest with
      | some (l, r) => some (c :: l, r)
      | none => none

/-- Rust str::split_once with a char pattern. -/
def splitOnceChar (ch : Char) (s : List Char) : Option (List Char × List Char) :=
  splitOnceSub [ch] s

/-- Rust str::split on a char: the pieces, always at least one. -/
def splitAll (ch : Char) : List Char → List (List Char)
  | [] => [[]]
  | c :: rest =>
    if c = ch then [] :: splitAll ch rest
    else
      match splitAll ch rest with
      | l :: ls => (c :: l) :: ls
      | [] => [[c]]

/-- One trailing carriage return is stripped from each line by Rust
str::lines. -/
def stripCR (l : List Char) : List Char :=
  match l.getLast? with
  | some c => if c = '\r' then l.dropLast else l
  | none => l

/-- Rust str::lines: split on newline, drop one trailing empty piece,
strip one trailing carriage return from each line. -/
def rustLines (s : List Char) : List (List Char) :=
  let parts := splitAll '\n' s
  let parts' := if parts.getLast? = some [] then parts.dropLast else parts
  parts'.map stripCR

/-- Rust str::strip_prefix: the remainder after the pattern, when the
pattern leads. -/
def stripPref : List Char → List Char → Option (List Char)
  | [], s => some s
  | _ :: _, [] => none
  | p :: ps, c :: cs => if p = c then stripPref ps cs else none

def containsChar (c : Char) (s : List Char) : Bool := s.any (fun x => x = c)

/-! ## Commit projection (objectstore.rs, get_commit_field) -/

/-- Commit fields (objectstore.rs, `enum CommitField`). -/
inductive CommitField where
  | tree
  | parent (n : Nat)
  | author
  | authorEmail
  | authorTimestamp
  | authorTimezone
  | committer
  | committerEmail
  | committerTimestamp
  | committerTimezone
  | message
deriving DecidableEq, Repr

/-- The header key looked up for a field (objectstore.rs).  `message` is
handled before the loop, so its name is never used. -/
def CommitField.fieldName : CommitField → List Char
  | .tree => "tree".toList
  | .parent _ => "parent".toList
  | .author | .authorEmail | .authorTimestamp | .authorTimezone => "author".toList
  | .committer | .committerEmail | .committerTimestamp | .committerTimezone => "committer".toList
  | .message => []

/-- The author/committer line decomposition of get_commit_field
(objectstore.rs): name, then " <", email, "> ", timestamp, space,
timezone.  Only called with a person field; the fall-through arm (the
source's unreachable branch) returns the timezone. -/
def personField (field : CommitField) (value : List Char) : Except Error (Option (List Char)) :=
  match splitOnceSub " <".toList value with
  | none => .error .invalidObject
  | some (name, v₁) =>
    match splitOnceSub "> ".toList v₁ with
    | none => .error .invalidObject
    | some (email, v₂) =>
      match splitOnceChar ' ' v₂ with
      | none => .error .invalidObject
      | some (timestamp, timezone) =>
        .ok (some
          (match field with
           | .author | .committer => name
           | .authorEmail | .committerEmail => email
           | .authorTimestamp | .committerTimestamp => timestamp
           | _ => timezone))

/-- The header-scanning loop of get_commit_field (objectstore.rs): each
line is split at its first space into key and value; non-matching keys
are skipped; `parent` counts occurrences. -/
def gcfLoop (field : CommitField) : List (List Char) → Nat → Except Error (Option (List Char))
  | [], _ => .ok none
  | line :: rest, parentIndex =>
    match splitOnceChar ' ' line with
    | none => .error .invalidObject
    | some (key, value) =>
      if key ≠ field.fieldName then gcfLoop field rest parentIndex
      else
        match field with
        | .tree => .ok (some value)
        | .parent n =>
          if n = parentIndex then .ok (some value) else gcfLoop field rest (parentIndex + 1)
        | .message => .ok none   -- not reached: the caller handles Message before the loop
        | _ => personField field value

/-- The decoded-text part of get_commit_field (objectstore.rs): split
metadata from message at the first blank line, then project the
requested field. -/
def gcf_text (text : List Char) (field : CommitField) : Except Error (Option (List Char)) :=
  match splitOnceSub ['\n', '\n'] text with
  | none => .error .invalidObject
  | some (metadata, message) =>
    match field with
    | .message => .ok (if message = [] then none else some message)
    | _ => gcfLoop field (rustLines metadata) 0

/-- get_commit_field (objectstore.rs): UTF-8 decode, then project. -/
def get_commit_field (commit : List Nat) (field : CommitField) :
    Except Error (Option (List Char)) :=
  match utf8Decode commit with
  | none => .error .invalidObject
  | some text => gcf_text text field

/-- get_commit_field_hash (objectstore.rs). -/
def get_commit_field_hash (commit : List Nat) (field : CommitField) :
    Except Error (Option Hash) :=
  match get_commit_field commit field with
  | .error e => .error e
  | .ok none => .ok none
  | .ok (some hex) =>
    match Hash.from_hex hex with
    | some h => .ok (some h)
    | none => .error .invalidObject

/-! ## Directories and repository state (directory.rs, repository.rs) -/

/-- File types (directory.rs, `enum FileType`). -/
inductive FileType where
  | regularFile
  | groupWriteableFile
  | executableFile
  | symbolicLink
  | gitlink
deriving DecidableEq, Repr

/-- Entry modes (directory.rs, `enum Mode`). -/
inductive Mode where
  | directory
  | regularFile
  | groupWriteableFile
  | executableFile
  | symbolicLink
  | gitlink
deriving DecidableEq, Repr

/-- The u32 discriminant values of `Mode` (directory.rs). -/
def Mode.val : Mode → Nat
  | .directory => 0o40000
  | .regularFile => 0o100644
  | .groupWriteableFile => 0o100664
  | .executableFile => 0o100755
  | .symbolicLink => 0o120000
  | .gitlink => 0o160000

/-- From FileType for Mode (directory.rs). -/
def FileType.toMode : FileType → Mode
  | .regularFile => .regularFile
  | .groupWriteableFile => .groupWriteableFile
  | .executableFile => .executableFile
  | .symbolicLink => .symbolicLink
  | .gitlink => .gitlink

/-- An in-memory directory (directory.rs, `type Directory`): a map from
entry name to (hash, mode), modelled as an association list.  The
claims proved here do not depend on the LiteMap iteration order. -/
abbrev Directory := List (List Char × (Hash × Mode))

def dirGet : Directory → List Char → Option (Hash × Mode)
  | [], _ => none
  | (k, v) :: rest, n => if k = n then some v else dirGet rest n

def dirInsert : Directory → List Char → Hash × Mode → Directory
  | [], n, v => [(n, v)]
  | (k, w) :: rest, n, v => if k = n then (n, v) :: rest else (k, w) :: dirInsert rest n v

def dirRemove : Directory → List Char → Directory
  | [], _ => []
  | (k, w) :: rest, n => if k = n then rest else (k, w) :: dirRemove rest n

/-- The directory memoization cache (repository.rs, the `directories`
field), a map from hash to Directory. -/
abbrev DirCache := List (Hash × Directory)

def dm_get : DirCache → Hash → Option Directory
  | [], _ => none
  | (k, v) :: rest, h => if k = h then some v else dm_get rest h

def dm_put : DirCache → Hash → Directory → DirCache
  | [], h, d => [(h, d)]
  | (k, v) :: rest, h, d => if k = h then (h, d) :: rest else (k, v) :: dm_put rest h d

def dm_remove : DirCache → Hash → Option Directory × DirCache
  | [], _ => (none, [])
  | (k, v) :: rest, h =>
    if k = h then (some v, rest)
    else
      let r := dm_remove rest h
      (r.1, (k, v) :: r.2)

/-- Repository state (repository.rs, `struct Repository`). -/
structure RepoState where
  directories : DirCache
  objects : ObjectStore
  staged : ObjectStore
  upstream_head : Hash
  head : Hash
  root : Option Hash
deriving DecidableEq, Repr

/-- Repository::any_store_get (repository.rs): staged store first, then
the main store. -/
def any_store_get (s : RepoState) (h : Hash) (t : ObjectType) : Option (List Nat) :=
  match os_get_as s.staged h t with
  | some entries => some entries
  | none => os_get_as s.objects h t

/-- Repository::get_commit_root (repository.rs): the `tree` header of
the commit at `commit_hash` in the main store; `Ok(None)` when the hash
is not a stored commit. -/
def get_commit_root (s : RepoState) (commit_hash : Hash) : Except Error (Option Hash) :=
  match os_get_as s.objects commit_hash .commit with
  | some commit =>
    match get_commit_field_hash commit .tree with
    | .error e => .error e
    | .ok (some h) => .ok (some h)
    | .ok none => .error .invalidObject
  | none => .ok none

/-! ## Clone (clone.rs, Repository::clone) -/

/-- The reference argument of clone (clone.rs, `enum Reference`). -/
inductive Reference where
  | head
  | commitRef (h : Hash)
  | branch (name : List Char)
deriving DecidableEq, Repr

/-- Result of running clone up to the packfile transfer: an early
`Err(e)` return with the repository state at that point, a panic, or
the hand-off to the fetch/packfile phase (the remainder of clone.rs,
whose own failure modes are packfile and protocol errors; no later path
returns `DirtyWorkspace` or `NoSuchReference`). -/
inductive CloneStep where
  | err (e : Error) (s : RepoState)
  | crashed
  | toFetch (s : RepoState) (shallowSupported : Bool)
deriving DecidableEq, Repr

/-- The capability-line scan (clone.rs lines 51-61): `shallow` inside a
`fetch=` line's space-separated options. -/
def shallow_from_caps (capLines : List (List Char)) : Bool :=
  capLines.any fun line =>
    match stripPref "fetch=".toList line with
    | some fetch_options => (splitAll ' ' fetch_options).any (fun o => o = "shallow".toList)
    | none => false

/-- The ls-refs advertisement scan (clone.rs lines 74-89): each line is
split at its first space into hash and ref name; a line matching the
requested reference overwrites `head` (the accumulator); a malformed
line or un-parsable hash stops the loop with `GitProtocolError`, leaving
the accumulator at the value it had at that line.  Returns the final
accumulator and the error, if any. -/
def ls_refs_scan (reference : Reference) : List (List Char) → Hash → Hash × Option Error
  | [], acc => (acc, none)
  | line :: rest, acc =>
    match splitOnceChar ' ' line with
    | none => (acc, some .gitProtocolError)
    | some (hash_hex, ref_name) =>
      match reference with
      | .head =>
        if ref_name = "HEAD".toList then
          match Hash.from_hex hash_hex with
          | some h => ls_refs_scan reference rest h
          | none => (acc, some .gitProtocolError)
        else ls_refs_scan reference rest acc
      | .branch branch =>
        match stripPref "refs/heads/".toList ref_name with
        | some rn =>
          if rn = branch then
            match Hash.from_hex hash_hex with
            | some h => ls_refs_scan reference rest h
            | none => (acc, some .gitProtocolError)
          else ls_refs_scan reference rest acc
        | none => ls_refs_scan reference rest acc
      | .commitRef _ => ls_refs_scan reference rest acc

/-- The depth / `deepen` gate and hand-off at the end of the modelled
region (clone.rs lines 99-126). -/
def clone_fetch_gate (s : RepoState) (shallow : Bool) (depth : Option Nat) : CloneStep :=
  match depth with
  | some _ => if shallow then .toFetch s shallow else .err .unsupportedByRemote s
  | none => .toFetch s shallow

/-- The reference-resolution phase of clone (clone.rs lines 63-95) and
the hand-off: for a raw commit hash, `head` is simply overwritten;
otherwise `head` is zeroed and the advertisement scan runs, a zero
outcome meaning `NoSuchReference`. -/
def clone_resolve (s : RepoState) (reference : Reference) (advLines : List (List Char))
    (shallow : Bool) (depth : Option Nat) : CloneStep :=
  match reference with
  | .commitRef h => clone_fetch_gate { s with head := h } shallow depth
  | _ =>
    match (ls_refs_scan reference advLines Hash.zero).2 with
    | some e => .err e { s with head := (ls_refs_scan reference advLines Hash.zero).1 }
    | none =>
      if (ls_refs_scan reference advLines Hash.zero).1 = Hash.zero then
        .err .noSuchReference { s with head := (ls_refs_scan reference advLines Hash.zero).1 }
      else
        clone_fetch_gate { s with head := (ls_refs_scan reference advLines Hash.zero).1 }
          shallow depth

/-- Repository::clone (clone.rs) up to the packfile transfer, with the
transport abstracted: `capLines` are the capability lines read until the
first flush and `advLines` the ls-refs advertisement lines (both as
`read_line_str` returns them).  The dirty-workspace check runs first
(`get_commit_root(head).unwrap()` panics on a malformed head commit);
then the reference-resolution phase overwrites `head`. -/
def clone_model (s : RepoState) (reference : Reference) (capLines advLines : List (List Char))
    (depth : Option Nat) : CloneStep :=
  match get_commit_root s s.head with
  | .error _ => .crashed
  | .ok head_root =>
    if s.upstream_head ≠ s.head ∨ (head_root.isSome ∧ head_root ≠ s.root) then
      .err .dirtyWorkspace s
    else clone_resolve s reference advLines (shallow_from_caps capLines) depth

/-- Unfolding of clone_model once the dirty-check's
`get_commit_root(head)` value is known. -/
theorem clone_model_ok (s : RepoState) (reference : Reference)
    (capLines advLines : List (List Char)) (depth : Option Nat) (hr : Option Hash)
    (hroot : get_commit_root s s.head = .ok hr) :
    clone_model s reference capLines advLines depth
      = if s.upstream_head ≠ s.head ∨ (hr.isSome ∧ hr ≠ s.root) then
          .err .dirtyWorkspace s
        else clone_resolve s reference advLines (shallow_from_caps capLines) depth := by
  rw [clone_model, hroot]

/-- The clean-workspace predicate exactly as the spec words it:
`head == upstream-head ∧ (root == None ∨ root == tree-of(head))`. -/
def clean_spec (s : RepoState) : Prop :=
  s.head = s.upstream_head ∧
    (s.root = none ∨ get_commit_root s s.head = .ok s.root)

instance (s : RepoState) : Decidable (clean_spec s) := by
  unfold clean_spec; infer_instance

/-- The clean-workspace predicate the code actually checks (clone.rs
lines 29-32): `upstream-head == head ∧ (tree-of(head) == None ∨
tree-of(head) == root)`. -/
def clean_code (s : RepoState) (head_root : Option Hash) : Prop :=
  s.upstream_head = s.head ∧ (head_root = none ∨ head_root = s.root)

instance (s : RepoState) (hr : Option Hash) : Decidable (clean_code s hr) := by
  unfold clean_code; infer_instance

/-- A state that is clean by the spec's wording (root is None) but dirty
for no code path: head and upstream-head are zero, with a staged root. -/
def stagedFreshRepo : RepoState :=
  { directories := [], objects := [], staged := [], upstream_head := Hash.zero,
    head := Hash.zero, root := some (1 :: List.replicate 19 0) }

/-- C4 counterexample: a repository with `head = upstream-head = zero`
and a staged root is not clean by the spec's wording (root is Some and
differs from tree-of(head) = None), yet clone does not return
`DirtyWorkspace`: with an unmatched branch it runs all the way to
`NoSuchReference`.  The code's check compares tree-of(head) with root,
not root with None. -/
theorem clone_dirty_check_counterexample :
    ¬ clean_spec stagedFreshRepo ∧
    clone_model stagedFreshRepo (.branch "x".toList) [] [] none
      = .err .noSuchReference stagedFreshRepo ∧
    (∀ s' : RepoState, clone_model stagedFreshRepo (.branch "x".toList) [] [] none
      ≠ .err .dirtyWorkspace s') := by
  refine ⟨by decide, by decide, ?_⟩
  intro s' hcontra
  have h : clone_model stagedFreshRepo (.branch "x".toList) [] [] none
      = .err .noSuchReference stagedFreshRepo := by decide
  rw [h] at hcontra
  cases hcontra

/-- C4 as amended: whenever `get_commit_root(head)` succeeds and the
state is not clean in the code's sense — `upstream-head == head ∧
(tree-of(head) == None ∨ tree-of(head) == root)` — clone returns
`DirtyWorkspace` with the repository state untouched. -/
theorem clone_dirty_refusal (s : RepoState) (hr : Option Hash) (reference : Reference)
    (capLines advLines : List (List Char)) (depth : Option Nat)
    (hroot : get_commit_root s s.head = .ok hr)
    (hdirty : ¬ clean_code s hr) :
    clone_model s reference capLines advLines depth = .err .dirtyWorkspace s := by
  rw [clone_model_ok s reference capLines advLines depth hr hroot]
  rw [if_pos ?_]
  unfold clean_code at hdirty
  rcases Option.eq_none_or_eq_some hr with hnone | ⟨v, hv⟩
  · left
    intro heq
    exact hdirty ⟨heq, Or.inl hnone⟩
  · by_cases hup : s.upstream_head = s.head
    · right
      refine ⟨by rw [hv]; rfl, ?_⟩
      intro heq
      exact hdirty ⟨hup, Or.inr heq⟩
    · left; exact hup

/-- The advertisement scan only ever fails with GitProtocolError. -/
theorem ls_refs_scan_err (reference : Reference) :
    ∀ (lines : List (List Char)) (acc : Hash),
      (ls_refs_scan reference lines acc).2 = none ∨
      (ls_refs_scan reference lines acc).2 = some .gitProtocolError := by
  intro lines
  induction lines with
  | nil => intro acc; left; rfl
  | cons line rest ih =>
    intro acc
    rw [ls_refs_scan]
    split
    · right; rfl
    · split
      · split
        · split
          · exact ih _
          · right; rfl
        · exact ih _
      · split
        · split
          · split
            · exact ih _
            · right; rfl
          · exact ih _
        · exact ih _
      · exact ih _

/-- clone_fetch_gate never produces NoSuchReference. -/
theorem clone_fetch_gate_ne_nsr (s s' : RepoState) (shallow : Bool) (depth : Option Nat) :
    clone_fetch_gate s shallow depth ≠ .err .noSuchReference s' := by
  unfold clone_fetch_gate
  rcases depth with _ | d
  · intro h; cases h
  · by_cases hsh : shallow
    · rw [if_pos hsh]; intro h; cases h
    · rw [if_neg hsh]; intro h; cases h

/-- Whenever the resolution phase ends in NoSuchReference, the state it
reports is the input state with `head` replaced by the zero sentinel,
every other field untouched. -/
theorem clone_resolve_nsr (s s' : RepoState) (reference : Reference)
    (advLines : List (List Char)) (shallow : Bool) (depth : Option Nat)
    (h : clone_resolve s reference advLines shallow depth = .err .noSuchReference s') :
    s' = { s with head := Hash.zero } := by
  cases reference with
  | commitRef hh =>
    rw [clone_resolve] at h
    exact absurd h (clone_fetch_gate_ne_nsr _ _ _ _)
  | head =>
    simp only [clone_resolve] at h
    rcases ls_refs_scan_err .head advLines Hash.zero with he | he <;> rw [he] at h
    · by_cases hz : (ls_refs_scan .head advLines Hash.zero).1 = Hash.zero
      · rw [if_pos hz] at h
        cases h
        rw [hz]
      · rw [if_neg hz] at h
        exact absurd h (clone_fetch_gate_ne_nsr _ _ _ _)
    · cases h
  | branch b =>
    simp only [clone_resolve] at h
    rcases ls_refs_scan_err (.branch b) advLines Hash.zero with he | he <;> rw [he] at h
    · by_cases hz : (ls_refs_scan (.branch b) advLines Hash.zero).1 = Hash.zero
      · rw [if_pos hz] at h
        cases h
        rw [hz]
      · rw [if_neg hz] at h
        exact absurd h (clone_fetch_gate_ne_nsr _ _ _ _)
    · cases h

/-- A one-commit repository in the clean state clone requires: head and
upstream-head name the stored commit, root is its tree. -/
def clonedRepo : RepoState :=
  { directories := [],
    objects := [(2 :: List.replicate 19 0,
      ⟨.commit,
        utf8Encode ("tree ".toList ++ Hash.display (List.replicate 20 1) ++ ['\n', '\n', 'x']),
        Hash.zero⟩)],
    staged := [],
    upstream_head := 2 :: List.replicate 19 0,
    head := 2 :: List.replicate 19 0,
    root := some (List.replicate 20 1) }

/-- C5 counterexample: on a clean repository whose head is non-zero,
clone with an unadvertised branch returns NoSuchReference but `head`
has been overwritten with the zero sentinel — the repository is not
left untouched. -/
theorem clone_nsr_clobbers_head :
    clone_model clonedRepo (.branch "no-such".toList) [] [] none
      = .err .noSuchReference { clonedRepo with head := Hash.zero } ∧
    clonedRepo.head ≠ Hash.zero := by
  constructor
  · decide
  · decide

/-- C5 as amended: whenever clone returns NoSuchReference, the reported
repository state is the pre-call state with `head` set to the zero
sentinel; upstream-head, root, both object stores and the directory
cache keep their pre-call values, but `head` does not (unless it was
already zero). -/
theorem clone_nsr_frame (s s' : RepoState) (reference : Reference)
    (capLines advLines : List (List Char)) (depth : Option Nat)
    (h : clone_model s reference capLines advLines depth = .err .noSuchReference s') :
    s'.head = Hash.zero ∧ s'.upstream_head = s.upstream_head ∧ s'.root = s.root ∧
    s'.objects = s.objects ∧ s'.staged = s.staged ∧ s'.directories = s.directories := by
  have hs' : s' = { s with head := Hash.zero } := by
    rcases hgr : get_commit_root s s.head with e | hr
    · rw [clone_model, hgr] at h
      cases h
    · rw [clone_model_ok s reference capLines advLines depth hr hgr] at h
      by_cases hdirty : s.upstream_head ≠ s.head ∨ (hr.isSome ∧ hr ≠ s.root)
      · rw [if_pos hdirty] at h
        cases h
      · rw [if_neg hdirty] at h
        exact clone_resolve_nsr s s' reference advLines (shallow_from_caps capLines) depth h
  rw [hs']
  exact ⟨rfl, rfl, rfl, rfl, rfl, rfl⟩

/-- Witness for clone_nsr_frame at the concrete one-commit repository. -/
theorem clone_nsr_frame_w :
    ({ clonedRepo with head := Hash.zero } : RepoState).head = Hash.zero ∧
    ({ clonedRepo with head := Hash.zero } : RepoState).upstream_head = clonedRepo.upstream_head ∧
    ({ clonedRepo with head := Hash.zero } : RepoState).root = clonedRepo.root ∧
    ({ clonedRepo with head := Hash.zero } : RepoState).objects = clonedRepo.objects ∧
    ({ clonedRepo with head := Hash.zero } : RepoState).staged = clonedRepo.staged ∧
    ({ clonedRepo with head := Hash.zero } : RepoState).directories = clonedRepo.directories :=
  clone_nsr_frame clonedRepo { clonedRepo with head := Hash.zero }
    (.branch "no-such".toList) [] [] none (by decide)

/-- Witness for clone_dirty_refusal at a concrete dirty state. -/
theorem clone_dirty_refusal_w :
    clone_model
      { directories := [], objects := [], staged := [],
        upstream_head := 1 :: List.replicate 19 0, head := Hash.zero, root := none }
      .head [] [] none
      = .err .dirtyWorkspace
        { directories := [], objects := [], staged := [],
          upstream_head := 1 :: List.replicate 19 0, head := Hash.zero, root := none } :=
  clone_dirty_refusal _ none .head [] [] none (by decide) (by decide)

/-! ## Tree parsing and staging (objectstore.rs TreeIter, repository.rs) -/

/-- Index of the first NUL byte (`position` in TreeIter::next). -/
def firstZero : List Nat → Option Nat
  | [] => none
  | b :: rest => if b = 0 then some 0 else (firstZero rest).map (fun i => i + 1)

/-- The mode-string table of TreeIter::next (objectstore.rs): both the
6-digit and the 5-digit directory forms are accepted. -/
def parseMode (s : List Char) : Except Error Mode :=
  if s = "040000".toList ∨ s = "40000".toList then .ok .directory
  else if s = "100644".toList then .ok .regularFile
  else if s = "100664".toList then .ok .groupWriteableFile
  else if s = "100755".toList then .ok .executableFile
  else if s = "120000".toList then .ok .symbolicLink
  else if s = "160000".toList then .ok .gitlink
  else .error .invalidObject

/-- One step of TreeIter::next (objectstore.rs): split at the first NUL,
decode the description, split mode from name at the first space, read
the 20 hash bytes, parse the mode, and step past the entry. -/
def treeEntryStep (entries : List Nat) : Except Error ((List Char × Hash × Mode) × List Nat) :=
  match firstZero entries with
  | none => .error .invalidObject
  | some i =>
    match utf8Decode (entries.take i) with
    | none => .error .invalidObject
    | some descr =>
      match splitOnceChar ' ' descr with
      | none => .error .invalidObject
      | some (modeStr, node) =>
        match listSlice (entries.drop i) 1 21 with
        | none => .error .invalidObject
        | some hashBytes =>
          match parseMode modeStr with
          | .error e => .error e
          | .ok mode =>
            if 21 ≤ (entries.drop i).length then
              .ok ((node, hashBytes, mode), (entries.drop i).drop 21)
            else .error .invalidObject

/-- TreeIter (objectstore.rs) run to exhaustion.  `fuel` only bounds the
recursion: each entry consumes at least 21 bytes, so initial fuel
`entries.length` can never run out. -/
def treeEntriesF : Nat → List Nat → Except Error (List (List Char × Hash × Mode))
  | fuel, entries =>
    match entries with
    | [] => .ok []
    | _ :: _ =>
      match fuel with
      | 0 => .error .invalidObject
      | fuel + 1 =>
        match treeEntryStep entries with
        | .error e => .error e
        | .ok (entry, rest) =>
          match treeEntriesF fuel rest with
          | .error e => .error e
          | .ok l => .ok (entry :: l)

def treeEntries (entries : List Nat) : Except Error (List (List Char × Hash × Mode)) :=
  treeEntriesF entries.length entries

/-- Repository::try_find_dir (repository.rs): parse the tree object at
`h` (in either store) into a Directory. -/
def try_find_dir (s : RepoState) (h : Hash) : Except Error (Option Directory) :=
  match any_store_get s h .tree with
  | none => .ok none
  | some entries =>
    match treeEntries entries with
    | .error e => .error e
    | .ok l => .ok (some (l.foldl (fun d e => dirInsert d e.1 e.2) []))

/-- Repository::find_dir (repository.rs): missing directories fall back
to an empty one. -/
def find_dir (s : RepoState) (h : Hash) : Except Error Directory :=
  match try_find_dir s h with
  | .error e => .error e
  | .ok d => .ok (d.getD [])

/-- Repository::remove_dir (repository.rs): take the directory out of
the cache, or parse it from the stores. -/
def remove_dir (s : RepoState) (h : Hash) : Except Error (Directory × RepoState) :=
  match dm_remove s.directories h with
  | (some dir, dirs') => .ok (dir, { s with directories := dirs' })
  | (none, _) =>
    match find_dir s h with
    | .error e => .error e
    | .ok d => .ok (d, s)

/-- Repository::find_committed_hash_root (repository.rs): chase delta
hints through the staged store until a hash outside it; an entry whose
hint is the zero sentinel makes the whole walk return None.  `fuel`
bounds the loop: with fuel `staged.length + 1` exhaustion (outer `none`)
occurs exactly when the hints cycle inside the staged store, where the
source's while-loop diverges. -/
def find_committed_hash_root (staged : ObjectStore) : Nat → Hash → Option (Option Hash)
  | 0, _ => none
  | fuel + 1, h =>
    match os_get staged h with
    | none => some (some h)
    | some entry =>
      match entry.deltaHintOpt with
      | none => some none
      | some h' => find_committed_hash_root staged fuel h'

/-- The `prev_hash.and_then(find_committed_hash_root)` step of
update_dir, with divergence mapped to `crash`. -/
def delta_hint_of (s : RepoState) (prev_hash : Option Hash) : Outcome (Option Hash) :=
  match prev_hash with
  | none => .ok none
  | some ph =>
    match find_committed_hash_root s.staged (s.staged.length + 1) ph with
    | none => .crash
    | some o => .ok o

/-- Digits of `n` in base `base`, most significant first (the o and
decimal format specifiers).  `fuel` only bounds the recursion. -/
def natDigitsF (base : Nat) : Nat → Nat → List Char
  | 0, _ => []
  | fuel + 1, n =>
    if n < base then [Nat.digitChar n]
    else natDigitsF base fuel (n / base) ++ [Nat.digitChar (n % base)]

def natOct (n : Nat) : List Char := natDigitsF 8 (n + 1) n

def natDec (n : Nat) : List Char := natDigitsF 10 (n + 1) n

example : natOct (Mode.directory.val) = "40000".toList := by decide
example : natDec 1700000000 = "1700000000".toList := by decide

/-- ObjectStore::serialize_directory (objectstore.rs): concatenate
octal-mode, space, name, NUL, then the 20 raw hash bytes, for each
entry in iteration order, and insert the result as a tree object. -/
def serialize_directory (hashFn : ObjectType → List Nat → Hash) (store : ObjectStore)
    (dir : Directory) (delta_hint : Option Hash) : Hash × ObjectStore :=
  let serialized := dir.foldl
    (fun acc e => acc ++ utf8Encode (natOct e.2.2.val ++ [' '] ++ e.1) ++ [0] ++ e.2.1) []
  os_insert hashFn store .tree serialized delta_hint

/-- The common tail of Repository::update_dir (repository.rs lines
198-211): a produced entry already in the main store is dropped from
scratch, then the parent directory is updated or the entry removed,
empty directories collapsing to None. -/
def ud_tail (s : RepoState) (directory : Directory) (node : List Char)
    (result : Option (Hash × Mode)) : Outcome (Option Directory × RepoState) :=
  match result with
  | some (hash, mode) =>
    let s' := if os_has s.objects hash then { s with staged := (os_remove s.staged hash).2 } else s
    .ok (some (dirInsert directory node (hash, mode)), s')
  | none =>
    let directory' := dirRemove directory node
    .ok (if directory'.isEmpty then none else some directory', s)

/-- Repository::update_dir (repository.rs): recursive descent along the
remaining path segments, rebuilding each directory on the way back up
into the scratch store. -/
def update_dir (hashFn : ObjectType → List Nat → Hash) :
    List (List Char) → RepoState → Directory → List Char → Option (List Nat × FileType) →
    Outcome (Option Directory × RepoState)
  | [], s, directory, file_name, data =>
    match delta_hint_of s ((dirGet directory file_name).map (fun e => e.1)) with
    | .crash => .crash
    | .err e => .err e
    | .ok delta_hint =>
      match data with
      | some (d, ft) =>
        let ins := os_insert hashFn s.staged .blob d delta_hint
        ud_tail { s with staged := ins.2 } directory file_name (some (ins.1, ft.toMode))
      | none => ud_tail s directory file_name none
  | step :: steps, s, directory, file_name, data =>
    match delta_hint_of s ((dirGet directory step).map (fun e => e.1)) with
    | .crash => .crash
    | .err e => .err e
    | .ok delta_hint =>
      match (match (dirGet directory step).map (fun e => e.1) with
             | some h => remove_dir s h
             | none => .ok (([] : Directory), s)) with
      | .error e => .err e
      | .ok (subdir, s₁) =>
        match update_dir hashFn steps s₁ subdir file_name data with
        | .crash => .crash
        | .err e => .err e
        | .ok (osub, s₂) =>
          match osub with
          | some subdir' =>
            let ser := serialize_directory hashFn s₂.staged subdir' delta_hint
            let s₃ := { s₂ with staged := ser.2,
                                directories := dm_put s₂.directories ser.1 subdir' }
            ud_tail s₃ directory step (some (ser.1, .directory))
          | none => ud_tail s₂ directory step none

/-- Repository::stage (repository.rs): take the root directory out of
the cache, apply update_dir along the path, then serialize the new root
(or clear it). -/
def stage_model (hashFn : ObjectType → List Nat → Hash) (s : RepoState) (path : List Char)
    (data : Option (List Nat × FileType)) : Outcome RepoState :=
  match (match s.root with
         | some h => remove_dir s h
         | none => .ok (([] : Directory), s)) with
  | .error e => .err e
  | .ok (root_dir, s₁) =>
    match ((splitAll '/' path).filter (fun p => ¬ p.isEmpty)).getLast? with
    | none => .err .pathError
    | some file_name =>
      match update_dir hashFn
          (((splitAll '/' path).filter (fun p => ¬ p.isEmpty)).dropLast)
          s₁ root_dir file_name data with
      | .crash => .crash
      | .err e => .err e
      | .ok (oroot, s₂) =>
        match oroot with
        | some root_dir' =>
          match (match s₂.root with
                 | none => Outcome.ok (none : Option Hash)
                 | some h =>
                   match find_committed_hash_root s₂.staged (s₂.staged.length + 1) h with
                   | none => Outcome.crash
                   | some o => Outcome.ok o) with
          | .crash => .crash
          | .err e => .err e
          | .ok prev_hash =>
            let ser := serialize_directory hashFn s₂.staged root_dir' prev_hash
            let s₃ := { s₂ with staged := ser.2 }
            let s₄ := if os_has s₃.objects ser.1 then
                        { s₃ with staged := (os_remove s₃.staged ser.1).2 }
                      else s₃
            .ok { s₄ with directories := dm_put s₄.directories ser.1 root_dir',
                          root := some ser.1 }
        | none => .ok { s₂ with root := none }

/-! ## Frame property of staging (C10) -/

theorem remove_dir_frame (s : RepoState) (h0 : Hash) (d : Directory) (s' : RepoState)
    (h : remove_dir s h0 = .ok (d, s')) :
    s'.objects = s.objects ∧ s'.head = s.head ∧ s'.upstream_head = s.upstream_head ∧
    s'.staged = s.staged ∧ s'.root = s.root := by
  unfold remove_dir at h
  split at h
  · cases h
    exact ⟨rfl, rfl, rfl, rfl, rfl⟩
  · split at h
    · cases h
    · cases h
      exact ⟨rfl, rfl, rfl, rfl, rfl⟩

theorem ud_tail_frame (s : RepoState) (dir : Directory) (node : List Char)
    (result : Option (Hash × Mode)) (od : Option Directory) (s' : RepoState)
    (h : ud_tail s dir node result = .ok (od, s')) :
    s'.objects = s.objects ∧ s'.head = s.head ∧ s'.upstream_head = s.upstream_head ∧
    s'.root = s.root ∧ s'.directories = s.directories := by
  unfold ud_tail at h
  split at h
  · cases h
    refine ⟨?_, ?_, ?_, ?_, ?_⟩ <;> (split <;> rfl)
  · cases h
    exact ⟨rfl, rfl, rfl, rfl, rfl⟩

theorem update_dir_frame (hashFn : ObjectType → List Nat → Hash) :
    ∀ (steps : List (List Char)) (s : RepoState) (dir : Directory) (fn : List Char)
      (data : Option (List Nat × FileType)) (od : Option Directory) (s' : RepoState),
      update_dir hashFn steps s dir fn data = .ok (od, s') →
      s'.objects = s.objects ∧ s'.head = s.head ∧ s'.upstream_head = s.upstream_head ∧
      s'.root = s.root := by
  intro steps
  induction steps with
  | nil =>
    intro s dir fn data od s' h
    unfold update_dir at h
    split at h
    · cases h
    · cases h
    · split at h
      · have hf := ud_tail_frame _ _ _ _ _ _ h
        simpa using ⟨hf.1, hf.2.1, hf.2.2.1, hf.2.2.2.1⟩
      · have hf := ud_tail_frame _ _ _ _ _ _ h
        exact ⟨hf.1, hf.2.1, hf.2.2.1, hf.2.2.2.1⟩
  | cons step steps ih =>
    intro s dir fn data od s' h
    unfold update_dir at h
    split at h
    · cases h
    · cases h
    · split at h
      · cases h
      · rename_i subdir s₁ heq₁
        have hf₁ : s₁.objects = s.objects ∧ s₁.head = s.head ∧
            s₁.upstream_head = s.upstream_head ∧ s₁.root = s.root := by
          split at heq₁
          · have hr := remove_dir_frame _ _ _ _ heq₁
            exact ⟨hr.1, hr.2.1, hr.2.2.1, hr.2.2.2.2⟩
          · cases heq₁
            exact ⟨rfl, rfl, rfl, rfl⟩
        split at h
        · cases h
        · cases h
        · rename_i osub s₂ heq₂
          have hf₂ := ih _ _ _ _ _ _ heq₂
          split at h
          · have hf₃ := ud_tail_frame _ _ _ _ _ _ h
            simp only at hf₃
            refine ⟨?_, ?_, ?_, ?_⟩
            · rw [hf₃.1, hf₂.1, hf₁.1]
            · rw [hf₃.2.1, hf₂.2.1, hf₁.2.1]
            · rw [hf₃.2.2.1, hf₂.2.2.1, hf₁.2.2.1]
            · rw [hf₃.2.2.2.1, hf₂.2.2.2, hf₁.2.2.2]
          · have hf₃ := ud_tail_frame _ _ _ _ _ _ h
            refine ⟨?_, ?_, ?_, ?_⟩
            · rw [hf₃.1, hf₂.1, hf₁.1]
            · rw [hf₃.2.1, hf₂.2.1, hf₁.2.1]
            · rw [hf₃.2.2.1, hf₂.2.2.1, hf₁.2.2.1]
            · rw [hf₃.2.2.2.1, hf₂.2.2.2, hf₁.2.2.2]

/-- C10: a successful stage call leaves the main object store, head and
upstream-head exactly as they were (for every hash function, state,
path and data argument): staging only writes the scratch store, the
directory cache and root. -/
theorem stage_frame (hashFn : ObjectType → List Nat → Hash) (s : RepoState)
    (path : List Char) (data : Option (List Nat × FileType)) (s' : RepoState)
    (h : stage_model hashFn s path data = .ok s') :
    s'.objects = s.objects ∧ s'.head = s.head ∧ s'.upstream_head = s.upstream_head := by
  unfold stage_model at h
  split at h
  · cases h
  · rename_i root_dir s₁ heq₁
    have hf₁ : s₁.objects = s.objects ∧ s₁.head = s.head ∧
        s₁.upstream_head = s.upstream_head := by
      split at heq₁
      · have hr := remove_dir_frame _ _ _ _ heq₁
        exact ⟨hr.1, hr.2.1, hr.2.2.1⟩
      · cases heq₁
        exact ⟨rfl, rfl, rfl⟩
    split at h
    · cases h
    · split at h
      · cases h
      · cases h
      · rename_i oroot s₂ heq₂
        have hf₂ := update_dir_frame hashFn _ _ _ _ _ _ _ heq₂
        split at h
        · split at h
          · cases h
          · cases h
          · cases h
            constructor
            · show (if os_has _ _ then _ else _ : RepoState).objects = s.objects
              split <;> (rw [hf₂.1, hf₁.1])
            constructor
            · show (if os_has _ _ then _ else _ : RepoState).head = s.head
              split <;> (rw [hf₂.2.1, hf₁.2.1])
            · show (if os_has _ _ then _ else _ : RepoState).upstream_head = s.upstream_head
              split <;> (rw [hf₂.2.2.1, hf₁.2.2])
        · cases h
          exact ⟨by rw [hf₂.1, hf₁.1], by rw [hf₂.2.1, hf₁.2.1],
            by rw [hf₂.2.2.1, hf₁.2.2]⟩

def emptyRepo : RepoState :=
  { directories := [], objects := [], staged := [], upstream_head := Hash.zero,
    head := Hash.zero, root := none }

/-- Witness for stage_frame: staging a deletion at path "a" on the empty
repository succeeds (returning the same state) and leaves the main
store, head and upstream-head unchanged. -/
theorem stage_frame_w :
    emptyRepo.objects = emptyRepo.objects ∧
    emptyRepo.head = emptyRepo.head ∧
    emptyRepo.upstream_head = emptyRepo.upstream_head :=
  stage_frame constHashFn emptyRepo "a".toList none emptyRepo (by decide)

/-! ## Commit creation (repository.rs, Repository::commit) -/

/-- Repository::commit_object (repository.rs): promote one scratch
entry (and, for trees, its children, via the cached Directory) into the
main store.  The unwrap on the directory-cache insert panics when a
staged tree is not cached.  `fuel` only bounds the recursion: every
recursion level first removes an entry from the staged store, so fuel
`staged.length + 1` can never run out. -/
def commit_object_go (hashFn : ObjectType → List Nat → Hash) :
    Nat → RepoState → Hash → Outcome RepoState
  | 0, _, _ => .crash
  | fuel + 1, s, h =>
    match os_remove s.staged h with
    | (none, _) => .ok s
    | (some entry, staged') =>
      let s₁ : RepoState := { s with staged := staged' }
      let afterRec : Outcome RepoState :=
        if entry.objType = ObjectType.tree then
          match dm_get s₁.directories h with
          | none => .crash
          | some dir =>
            let s₂ : RepoState := { s₁ with directories := dm_put s₁.directories h [] }
            Outcome.bind
              (dir.foldl
                (fun acc e => Outcome.bind acc (fun st => commit_object_go hashFn fuel st e.2.1))
                (Outcome.ok s₂))
              (fun st => .ok { st with directories := dm_put st.directories h dir })
        else .ok s₁
      Outcome.bind afterRec
        (fun st => .ok { st with objects := (os_insert_entry hashFn st.objects entry).2 })

def commit_object (hashFn : ObjectType → List Nat → Hash) (s : RepoState) (h : Hash) :
    Outcome RepoState :=
  commit_object_go hashFn (s.staged.length + 1) s h

/-- The text serialized by Repository::commit (repository.rs lines
302-319): tree header, optional parent header, author and committer
lines with a +0000 timezone, a blank line, the message, a final
newline. -/
def commit_text (tree_hash head : Hash) (a0 a1 c0 c1 : List Char) (ts : Nat)
    (message : List Char) : List Char :=
  "tree ".toList ++ Hash.display tree_hash ++ ['\n'] ++
  (if head = Hash.zero then [] else "parent ".toList ++ Hash.display head ++ ['\n']) ++
  "author ".toList ++ a0 ++ " <".toList ++ a1 ++ "> ".toList ++ natDec ts
    ++ " +0000".toList ++ ['\n'] ++
  "committer ".toList ++ c0 ++ " <".toList ++ c1 ++ "> ".toList ++ natDec ts
    ++ " +0000".toList ++ ['\n'] ++
  ['\n'] ++ message ++ ['\n']

/-- Repository::commit (repository.rs): validate the author and
committer strings, promote the root subtree when it differs from the
tree of the current head (the unwrap on get_commit_root panics on a
malformed head commit), serialize the commit, insert it into the main
store and advance head.  A `None` timestamp uses the wall clock,
supplied here as `now`. -/
def commit_model (hashFn : ObjectType → List Nat → Hash) (s : RepoState)
    (message a0 a1 c0 c1 : List Char) (timestamp : Option Nat) (now : Nat) :
    Outcome (Hash × RepoState) :=
  if containsChar '\n' a0 || containsChar '<' a0 || containsChar '>' a0
    || containsChar '\n' a1 || containsChar '<' a1 || containsChar '>' a1
    || containsChar '\n' c0 || containsChar '<' c0 || containsChar '>' c0
    || containsChar '\n' c1 || containsChar '<' c1 || containsChar '>' c1 then
    .err .invalidObject
  else
    match (match s.root with
           | some root =>
             match get_commit_root s s.head with
             | .error _ => Outcome.crash
             | .ok hr => if some root ≠ hr then commit_object hashFn s root else .ok s
           | none => .ok s) with
    | .crash => .crash
    | .err e => .err e
    | .ok s₁ =>
      let ser := os_insert hashFn s₁.objects .commit
        (utf8Encode (commit_text (s₁.root.getD Hash.zero) s₁.head a0 a1 c0 c1
          (timestamp.getD now) message)) none
      .ok (ser.1, { s₁ with objects := ser.2, head := ser.1 })

/-! ## Lemmas for the post-commit invariant (C9) -/

theorem digitChar_ne_nl_cr (n : Nat) : Nat.digitChar n ≠ '\n' ∧ Nat.digitChar n ≠ '\r' := by
  by_cases h : n < 16
  · exact (by decide : ∀ m, m < 16 → Nat.digitChar m ≠ '\n' ∧ Nat.digitChar m ≠ '\r') n h
  · have hs : Nat.digitChar n = '*' := by
      rw [Nat.digitChar]
      repeat rw [if_neg (show ¬_ by omega)]
    rw [hs]
    exact ⟨by decide, by decide⟩

theorem display_chars (h : Hash) : ∀ c ∈ Hash.display h, c ≠ '\n' ∧ c ≠ '\r' := by
  induction h with
  | nil => intro c hc; cases hc
  | cons b t ih =>
    intro c hc
    rw [Hash.display] at hc
    rcases List.mem_append.mp hc with h1 | h2
    · rcases h1 with _ | ⟨_, h1⟩
      · exact digitChar_ne_nl_cr _
      · rcases h1 with _ | ⟨_, h1⟩
        · exact digitChar_ne_nl_cr _
        · cases h1
    · exact ih c h2

theorem natDigitsF_chars (base : Nat) :
    ∀ (fuel n : Nat) (c : Char), c ∈ natDigitsF base fuel n → ∃ d, c = Nat.digitChar d := by
  intro fuel
  induction fuel with
  | zero => intro n c hc; cases hc
  | succ fuel ih =>
    intro n c hc
    rw [natDigitsF] at hc
    split at hc
    · rcases hc with _ | ⟨_, hc⟩
      · exact ⟨n, rfl⟩
      · cases hc
    · rcases List.mem_append.mp hc with h1 | h2
      · exact ih _ c h1
      · rcases h2 with _ | ⟨_, h2⟩
        · exact ⟨n % base, rfl⟩
        · cases h2

theorem natDec_chars (n : Nat) : ∀ c ∈ natDec n, c ≠ '\n' ∧ c ≠ '\r' := by
  intro c hc
  rcases natDigitsF_chars 10 (n + 1) n c hc with ⟨d, hd⟩
  rw [hd]
  exact digitChar_ne_nl_cr d

/-- Join lines with single newlines (no trailing newline). -/
def joinNL : List (List Char) → List Char
  | [] => []
  | l :: ls =>
    match ls with
    | [] => l
    | _ :: _ => l ++ '\n' :: joinNL ls

/-- A pattern whose first character avoids a block of text passes over
it unmatched. -/
theorem splitOnceSub_not_in (pat : List Char) (p0 : Char) (hpat : pat.head? = some p0) :
    ∀ (A t : List Char), (∀ c ∈ A, c ≠ p0) →
      splitOnceSub pat (A ++ t) = (splitOnceSub pat t).map (fun pr => (A ++ pr.1, pr.2)) := by
  intro A
  induction A with
  | nil =>
    intro t _
    rcases hsp : splitOnceSub pat t with _ | ⟨l, r⟩ <;> simp [hsp]
  | cons c A' ih =>
    intro t hA
    have hc : c ≠ p0 := hA c (List.mem_cons_self c A')
    have hpre : isPre pat (c :: (A' ++ t)) = false := by
      rcases pat with _ | ⟨q, pat'⟩
      · cases hpat
      · have hq : q = p0 := by
          simp [List.head?] at hpat
          exact hpat
        rw [isPre, hq]
        rw [decide_eq_false (fun hqc : p0 = c => hc hqc.symm)]
        rw [Bool.false_and]
    rw [List.cons_append, splitOnceSub, hpre]
    simp only [Bool.false_eq_true, if_false]
    rw [ih t (fun x hx => hA x (List.mem_cons_of_mem c hx))]
    rcases hsp : splitOnceSub pat t with _ | ⟨l, r⟩ <;> simp [hsp]

theorem joinNL_cons_head (l' : List Char) (ls : List (List Char)) (c₀ : Char) (l'' : List Char)
    (hl : l' = c₀ :: l'') : ∃ tail, joinNL (l' :: ls) = c₀ :: tail := by
  rcases ls with _ | ⟨a, ls'⟩
  · refine ⟨l'', ?_⟩
    rw [hl]
    rfl
  · refine ⟨l'' ++ '\n' :: joinNL (a :: ls'), ?_⟩
    rw [hl]
    rfl

/-- The first blank line of a well-formed header block is found exactly
at the block's end. -/
theorem splitOnceSub_boundary :
    ∀ (lines : List (List Char)) (rest : List Char),
      (∀ l ∈ lines, l ≠ [] ∧ ∀ c ∈ l, c ≠ '\n') →
      splitOnceSub ['\n', '\n'] (joinNL lines ++ '\n' :: '\n' :: rest)
        = some (joinNL lines, rest) := by
  intro lines
  induction lines with
  | nil =>
    intro rest _
    rw [show joinNL [] = [] from rfl]
    rw [List.nil_append, splitOnceSub]
    rw [show isPre ['\n', '\n'] ('\n' :: '\n' :: rest) = true by simp [isPre]]
    rfl
  | cons l ls ih =>
    intro rest hln
    have hl := hln l (List.mem_cons_self l ls)
    rcases ls with _ | ⟨l', ls'⟩
    · rw [show joinNL [l] = l from rfl]
      rw [splitOnceSub_not_in ['\n', '\n'] '\n' rfl l ('\n' :: '\n' :: rest) hl.2]
      rw [splitOnceSub]
      rw [show isPre ['\n', '\n'] ('\n' :: '\n' :: rest) = true by simp [isPre]]
      simp
    · have hl' := hln l' (List.mem_cons_of_mem l (List.mem_cons_self l' ls'))
      have hjoin : joinNL (l :: l' :: ls') = l ++ '\n' :: joinNL (l' :: ls') := rfl
      rw [hjoin, List.append_assoc]
      rw [splitOnceSub_not_in ['\n', '\n'] '\n' rfl l _ hl.2]
      rcases hl'e : l' with _ | ⟨c₀, l''⟩
      · exact absurd hl'e hl'.1
      · rcases joinNL_cons_head l' ls' c₀ l'' hl'e with ⟨tail, htail⟩
        have hc₀ : c₀ ≠ '\n' := by
          have : c₀ ∈ l' := by rw [hl'e]; exact List.mem_cons_self c₀ l''
          exact hl'.2 c₀ this
        have hstep : splitOnceSub ['\n', '\n']
            (('\n' :: joinNL (l' :: ls')) ++ '\n' :: '\n' :: rest)
            = some ('\n' :: joinNL (l' :: ls'), rest) := by
          rw [List.cons_append, splitOnceSub]
          rw [show isPre ['\n', '\n'] ('\n' :: (joinNL (l' :: ls') ++ '\n' :: '\n' :: rest))
              = false by
            rw [htail, List.cons_append, isPre, isPre]
            rw [decide_eq_false (fun hc : ('\n' : Char) = c₀ => hc₀ hc.symm)]
            simp]
          simp only [Bool.false_eq_true, if_false]
          rw [ih rest (fun x hx => hln x (List.mem_cons_of_mem l hx))]
        rw [← hl'e]
        rw [hstep]
        simp [hjoin]

theorem splitAll_not_in (ch : Char) :
    ∀ (A B : List Char), (∀ c ∈ A, c ≠ ch) →
      splitAll ch (A ++ ch :: B) = A :: splitAll ch B := by
  intro A
  induction A with
  | nil =>
    intro B _
    rw [List.nil_append, splitAll, if_pos rfl]
  | cons c A' ih =>
    intro B hA
    rw [List.cons_append, splitAll,
      if_neg (hA c (List.mem_cons_self c A')),
      ih B (fun x hx => hA x (List.mem_cons_of_mem c hx))]

theorem splitAll_ne_nil (ch : Char) : ∀ s : List Char, splitAll ch s ≠ [] := by
  intro s
  induction s with
  | nil => intro h; cases h
  | cons c rest ih =>
    rw [splitAll]
    by_cases hc : c = ch
    · rw [if_pos hc]; intro h; cases h
    · rw [if_neg hc]
      rcases hsp : splitAll ch rest with _ | ⟨l, ls⟩
      · exact absurd hsp ih
      · intro h; cases h

theorem stripCR_id (A : List Char) (hA : ∀ c ∈ A, c ≠ '\r') : stripCR A = A := by
  unfold stripCR
  rcases hlast : A.getLast? with _ | c
  · rfl
  · have hmem : c ∈ A.getLast? := Option.mem_def.mpr hlast
    rcases List.mem_getLast?_eq_getLast hmem with ⟨hne, hceq⟩
    have hc : c ∈ A := by rw [hceq]; exact List.getLast_mem hne
    show (if c = '\r' then A.dropLast else A) = A
    exact if_neg (hA c hc)

theorem rustLines_cons (A B : List Char) (hA : ∀ c ∈ A, c ≠ '\n') :
    rustLines (A ++ '\n' :: B) = stripCR A :: rustLines B := by
  unfold rustLines
  rw [splitAll_not_in '\n' A B hA]
  rcases hsp : splitAll '\n' B with _ | ⟨p, ps⟩
  · exact absurd hsp (splitAll_ne_nil '\n' B)
  · simp only []
    by_cases hlast : (p :: ps).getLast? = some []
    · rw [List.getLast?_cons_cons]
      rw [if_pos hlast, if_pos hlast]
      rw [show (A :: p :: ps).dropLast = A :: (p :: ps).dropLast from rfl]
      rw [List.map_cons]
    · rw [List.getLast?_cons_cons]
      rw [if_neg hlast, if_neg hlast]
      rw [List.map_cons]

theorem splitOnceChar_tree (hex : List Char) :
    splitOnceChar ' ' ("tree ".toList ++ hex) = some ("tree".toList, hex) := by
  have he : "tree ".toList ++ hex = "tree".toList ++ (' ' :: hex) := rfl
  rw [he, splitOnceChar]
  rw [splitOnceSub_not_in [' '] ' ' rfl "tree".toList (' ' :: hex) (by decide)]
  rw [show splitOnceSub [' '] (' ' :: hex) = some ([], hex) by
    rw [splitOnceSub]
    rw [show isPre [' '] (' ' :: hex) = true by simp [isPre]]
    rfl]
  simp

theorem gcfLoop_tree_first (hex : List Char) (rest : List (List Char)) :
    gcfLoop .tree (("tree ".toList ++ hex) :: rest) 0 = .ok (some hex) := by
  rw [gcfLoop, splitOnceChar_tree]
  rfl

theorem os_get_put_self (m : ObjectStore) (h : Hash) (e : StoreEntry) :
    os_get (os_put m h e) h = some e := by
  induction m with
  | nil => rw [os_put, os_get, if_pos rfl]
  | cons kv rest ih =>
    rw [os_put]
    by_cases hk : kv.1 = h
    · rw [if_pos hk, os_get, if_pos rfl]
    · rw [if_neg hk, os_get, if_neg hk]
      exact ih

/-- The four header lines of the serialized commit text. -/
def commit_lines (tree_hash head : Hash) (a0 a1 c0 c1 : List Char) (ts : Nat) :
    List (List Char) :=
  ("tree ".toList ++ Hash.display tree_hash) ::
    (if head = Hash.zero then [] else ["parent ".toList ++ Hash.display head]) ++
    ["author ".toList ++ a0 ++ " <".toList ++ a1 ++ "> ".toList ++ natDec ts
        ++ " +0000".toList,
      "committer ".toList ++ c0 ++ " <".toList ++ c1 ++ "> ".toList ++ natDec ts
        ++ " +0000".toList]

theorem commit_text_shape (tree_hash head : Hash) (a0 a1 c0 c1 : List Char) (ts : Nat)
    (message : List Char) :
    commit_text tree_hash head a0 a1 c0 c1 ts message
      = joinNL (commit_lines tree_hash head a0 a1 c0 c1 ts)
          ++ '\n' :: '\n' :: (message ++ ['\n']) := by
  by_cases hz : head = Hash.zero
  · rw [commit_text, commit_lines, if_pos hz, if_pos hz]
    simp [joinNL]
  · rw [commit_text, commit_lines, if_neg hz, if_neg hz]
    simp [joinNL]

theorem commit_lines_wf (tree_hash head : Hash) (a0 a1 c0 c1 : List Char) (ts : Nat)
    (ha0 : ∀ c ∈ a0, c ≠ '\n') (ha1 : ∀ c ∈ a1, c ≠ '\n')
    (hc0 : ∀ c ∈ c0, c ≠ '\n') (hc1 : ∀ c ∈ c1, c ≠ '\n') :
    ∀ l ∈ commit_lines tree_hash head a0 a1 c0 c1 ts, l ≠ [] ∧ ∀ c ∈ l, c ≠ '\n' := by
  intro l hl
  rw [commit_lines] at hl
  have hdisp : ∀ (hs : Hash) (c : Char), c ∈ Hash.display hs → c ≠ '\n' :=
    fun hs c hc => (display_chars hs c hc).1
  have hdec : ∀ c ∈ natDec ts, c ≠ '\n' := fun c hc => (natDec_chars ts c hc).1
  rcases hl with _ | ⟨_, hl⟩
  · constructor
    · simp
    · intro c hc
      rcases List.mem_append.mp hc with h1 | h2
      · exact (by decide : ∀ x ∈ "tree ".toList, x ≠ '\n') c h1
      · exact hdisp _ c h2
  · rcases List.mem_append.mp hl with h1 | h2
    · by_cases hz : head = Hash.zero
      · rw [if_pos hz] at h1
        cases h1
      · rw [if_neg hz] at h1
        rcases h1 with _ | ⟨_, h1⟩
        · constructor
          · simp
          · intro c hc
            rcases List.mem_append.mp hc with hx | hy
            · exact (by decide : ∀ x ∈ "parent ".toList, x ≠ '\n') c hx
            · exact hdisp _ c hy
        · cases h1
    · have hperson : ∀ (pre : List Char) (x0 x1 : List Char),
          (∀ c ∈ pre, c ≠ '\n') → (∀ c ∈ x0, c ≠ '\n') → (∀ c ∈ x1, c ≠ '\n') →
          ∀ c ∈ pre ++ x0 ++ " <".toList ++ x1 ++ "> ".toList ++ natDec ts
              ++ " +0000".toList, c ≠ '\n' := by
        intro pre x0 x1 hpre hx0 hx1 c hc
        rcases List.mem_append.mp hc with hc | hc
        rcases List.mem_append.mp hc with hc | hc
        rcases List.mem_append.mp hc with hc | hc
        rcases List.mem_append.mp hc with hc | hc
        rcases List.mem_append.mp hc with hc | hc
        rcases List.mem_append.mp hc with hc | hc
        · exact hpre c hc
        · exact hx0 c hc
        · exact (by decide : ∀ x ∈ " <".toList, x ≠ '\n') c hc
        · exact hx1 c hc
        · exact (by decide : ∀ x ∈ "> ".toList, x ≠ '\n') c hc
        · exact hdec c hc
        · exact (by decide : ∀ x ∈ " +0000".toList, x ≠ '\n') c hc
      rcases h2 with _ | ⟨_, h2⟩
      · refine ⟨by simp, ?_⟩
        exact hperson "author ".toList a0 a1 (by decide) ha0 ha1
      · rcases h2 with _ | ⟨_, h2⟩
        · refine ⟨by simp, ?_⟩
          exact hperson "committer ".toList c0 c1 (by decide) hc0 hc1
        · cases h2

theorem rustLines_commit_lines (tree_hash head : Hash) (a0 a1 c0 c1 : List Char) (ts : Nat) :
    ∃ rest, rustLines (joinNL (commit_lines tree_hash head a0 a1 c0 c1 ts))
      = ("tree ".toList ++ Hash.display tree_hash) :: rest := by
  have hl : ∀ c ∈ "tree ".toList ++ Hash.display tree_hash, c ≠ '\n' := by
    intro c hc
    rcases List.mem_append.mp hc with h1 | h2
    · exact (by decide : ∀ x ∈ "tree ".toList, x ≠ '\n') c h1
    · exact (display_chars tree_hash c h2).1
  have hcr : ∀ c ∈ "tree ".toList ++ Hash.display tree_hash, c ≠ '\r' := by
    intro c hc
    rcases List.mem_append.mp hc with h1 | h2
    · exact (by decide : ∀ x ∈ "tree ".toList, x ≠ '\x0d') c h1
    · exact (display_chars tree_hash c h2).2
  have hshape : joinNL (commit_lines tree_hash head a0 a1 c0 c1 ts)
      = ("tree ".toList ++ Hash.display tree_hash) ++ '\n' ::
        joinNL ((if head = Hash.zero then [] else ["parent ".toList ++ Hash.display head]) ++
          ["author ".toList ++ a0 ++ " <".toList ++ a1 ++ "> ".toList ++ natDec ts
              ++ " +0000".toList,
            "committer ".toList ++ c0 ++ " <".toList ++ c1 ++ "> ".toList ++ natDec ts
              ++ " +0000".toList]) := by
    rw [commit_lines]
    by_cases hz : head = Hash.zero
    · rw [if_pos hz]
      simp [joinNL]
    · rw [if_neg hz]
      simp [joinNL]
  rw [hshape, rustLines_cons _ _ hl, stripCR_id _ hcr]
  exact ⟨_, rfl⟩

/-- The tree field of a serialized commit text parses back to the
formatted tree hash. -/
theorem gcf_text_commit (tree_hash head : Hash) (a0 a1 c0 c1 : List Char) (ts : Nat)
    (message : List Char)
    (ha0 : ∀ c ∈ a0, c ≠ '\n') (ha1 : ∀ c ∈ a1, c ≠ '\n')
    (hc0 : ∀ c ∈ c0, c ≠ '\n') (hc1 : ∀ c ∈ c1, c ≠ '\n') :
    gcf_text (commit_text tree_hash head a0 a1 c0 c1 ts message) .tree
      = .ok (some (Hash.display tree_hash)) := by
  rw [commit_text_shape]
  rw [gcf_text, splitOnceSub_boundary _ _ (commit_lines_wf _ _ _ _ _ _ _ ha0 ha1 hc0 hc1)]
  rcases rustLines_commit_lines tree_hash head a0 a1 c0 c1 ts with ⟨rest, hrest⟩
  show gcfLoop .tree (rustLines (joinNL (commit_lines tree_hash head a0 a1 c0 c1 ts))) 0
    = .ok (some (Hash.display tree_hash))
  rw [hrest, gcfLoop_tree_first]

theorem from_hex_display (h : Hash) (hwf : Hash.wf h) :
    Hash.from_hex (Hash.display h) = some h := by
  rw [Hash.from_hex, if_pos]
  · exact fromHexPairs_display h hwf.2
  · exact ⟨by rw [display_length, hwf.1], display_ascii h hwf.2⟩

theorem containsChar_false (c : Char) (s : List Char) (h : ¬ containsChar c s = true) :
    ∀ x ∈ s, x ≠ c := by
  intro x hx hxc
  apply h
  rw [containsChar, List.any_eq_true]
  exact ⟨x, hx, by simp [hxc]⟩

theorem get_commit_field_commit (tree_hash head : Hash) (a0 a1 c0 c1 : List Char)
    (ts : Nat) (message : List Char)
    (ha0 : ∀ c ∈ a0, c ≠ '\n') (ha1 : ∀ c ∈ a1, c ≠ '\n')
    (hc0 : ∀ c ∈ c0, c ≠ '\n') (hc1 : ∀ c ∈ c1, c ≠ '\n') :
    get_commit_field (utf8Encode (commit_text tree_hash head a0 a1 c0 c1 ts message)) .tree
      = .ok (some (Hash.display tree_hash)) := by
  rw [get_commit_field, utf8Decode_encode]
  exact gcf_text_commit tree_hash head a0 a1 c0 c1 ts message ha0 ha1 hc0 hc1

theorem get_commit_field_hash_commit (tree_hash head : Hash) (a0 a1 c0 c1 : List Char)
    (ts : Nat) (message : List Char) (hwf : Hash.wf tree_hash)
    (ha0 : ∀ c ∈ a0, c ≠ '\n') (ha1 : ∀ c ∈ a1, c ≠ '\n')
    (hc0 : ∀ c ∈ c0, c ≠ '\n') (hc1 : ∀ c ∈ c1, c ≠ '\n') :
    get_commit_field_hash (utf8Encode (commit_text tree_hash head a0 a1 c0 c1 ts message))
      .tree = .ok (some tree_hash) := by
  rw [get_commit_field_hash,
    get_commit_field_commit tree_hash head a0 a1 c0 c1 ts message ha0 ha1 hc0 hc1]
  show (match Hash.from_hex (Hash.display tree_hash) with
        | some h => (.ok (some h) : Except Error (Option Hash))
        | none => .error .invalidObject) = .ok (some tree_hash)
  rw [from_hex_display tree_hash hwf]

theorem bind_ok {α β : Type} (o : Outcome α) (k : α → Outcome β) (b : β)
    (h : Outcome.bind o k = .ok b) : ∃ a, o = .ok a ∧ k a = .ok b := by
  cases o with
  | ok a => exact ⟨a, rfl, h⟩
  | err e =>
    simp only [Outcome.bind] at h
    cases h
  | crash =>
    simp only [Outcome.bind] at h
    cases h

theorem foldl_commit_root (hashFn : ObjectType → List Nat → Hash) (fuel : Nat)
    (hF : ∀ (s : RepoState) (h : Hash) (s' : RepoState),
      commit_object_go hashFn fuel s h = .ok s' → s'.root = s.root) :
    ∀ (l : Directory) (acc : Outcome RepoState) (r : Option Hash),
      (∀ a, acc = .ok a → a.root = r) →
      ∀ st, l.foldl
          (fun a e => Outcome.bind a (fun s => commit_object_go hashFn fuel s e.2.1)) acc
          = .ok st →
        st.root = r := by
  intro l
  induction l with
  | nil =>
    intro acc r hacc st hst
    exact hacc st hst
  | cons e t iht =>
    intro acc r hacc st hst
    rw [List.foldl_cons] at hst
    refine iht _ r ?_ st hst
    intro a ha
    rcases bind_ok _ _ _ ha with ⟨b, hb, hcb⟩
    rw [hF b e.2.1 a hcb]
    exact hacc b hb

theorem commit_object_go_root (hashFn : ObjectType → List Nat → Hash) :
    ∀ (fuel : Nat) (s : RepoState) (h : Hash) (s' : RepoState),
      commit_object_go hashFn fuel s h = .ok s' → s'.root = s.root := by
  intro fuel
  induction fuel with
  | zero =>
    intro s h s' heq
    simp only [commit_object_go] at heq
    cases heq
  | succ fuel ih =>
    intro s h s' heq
    rw [commit_object_go] at heq
    split at heq
    · cases heq
      rfl
    · rcases bind_ok _ _ _ heq with ⟨st, hafter, hk⟩
      cases hk
      show st.root = s.root
      split at hafter
      · split at hafter
        · cases hafter
        · rcases bind_ok _ _ _ hafter with ⟨st₁, hfold, hk₂⟩
          cases hk₂
          show st₁.root = s.root
          refine foldl_commit_root hashFn fuel ih _ _ s.root ?_ st₁ hfold
          intro a ha
          cases ha
          rfl
      · cases hafter
        rfl

theorem commit_object_root (hashFn : ObjectType → List Nat → Hash) (s : RepoState)
    (h : Hash) (s' : RepoState) (heq : commit_object hashFn s h = .ok s') :
    s'.root = s.root :=
  commit_object_go_root hashFn (s.staged.length + 1) s h s' heq

theorem get_commit_root_after_insert (hashFn : ObjectType → List Nat → Hash)
    (s₁ : RepoState) (bytes : List Nat) :
    get_commit_root
      { s₁ with objects := (os_insert hashFn s₁.objects .commit bytes none).2,
                head := (os_insert hashFn s₁.objects .commit bytes none).1 }
      (os_insert hashFn s₁.objects .commit bytes none).1
      = match get_commit_field_hash bytes .tree with
        | .error e => .error e
        | .ok (some h) => .ok (some h)
        | .ok none => .error .invalidObject := by
  rw [get_commit_root]
  show (match os_get_as (os_insert hashFn s₁.objects .commit bytes none).2
      (os_insert hashFn s₁.objects .commit bytes none).1 .commit with
    | some commit =>
      match get_commit_field_hash commit .tree with
      | .error e => (.error e : Except Error (Option Hash))
      | .ok (some h) => .ok (some h)
      | .ok none => .error .invalidObject
    | none => .ok none) = _
  rw [os_insert, os_insert_entry, os_get_as, os_get_put_self]
  rfl

def c9None : Hash × RepoState :=
  match commit_model constHashFn emptyRepo "m".toList "a".toList "ab".toList "c".toList
      "cd".toList (some 5) 0 with
  | .ok p => p
  | _ => (Hash.zero, emptyRepo)

/-- C9 counterexample: committing on a repository whose root is `None`
(a fresh repository with nothing staged) succeeds, and afterwards the
stored commit's `tree` header is the zero sentinel —
`get_commit_root head = Ok(Some(zero))` while `root = None` — so the
claimed invariant `tree-of(head) == root` fails at this reachable
input (repository.rs line 310 serializes
`self.root.unwrap_or(Hash::zero())`). -/
theorem commit_root_none_breaks_tree_eq_root :
    commit_model constHashFn emptyRepo "m".toList "a".toList "ab".toList "c".toList
        "cd".toList (some 5) 0 = .ok (c9None.1, c9None.2) ∧
    c9None.2.head = c9None.1 ∧
    c9None.2.root = none ∧
    get_commit_root c9None.2 c9None.2.head = .ok (some Hash.zero) ∧
    get_commit_root c9None.2 c9None.2.head ≠ .ok c9None.2.root := by
  refine ⟨rfl, rfl, rfl, by decide, by decide⟩

/-- C9 (amended): after every successful `Repository::commit`, `head`
is the hash returned by commit, the repository's root is unchanged,
and `head` refers to a commit object present in the main object store
whose `tree` header parses back to the root when the root is `Some`,
and to the zero sentinel hash when the root is `None` (repository.rs
serializes `self.root.unwrap_or(Hash::zero())`); the original claim's
unconditional `tree-of(head) == root` holds exactly on the `Some`
side.  The well-formedness hypothesis is the `[u32; 5]` type invariant
of the root hash. -/
theorem commit_head_tree_eq_root (hashFn : ObjectType → List Nat → Hash) (s : RepoState)
    (message a0 a1 c0 c1 : List Char) (timestamp : Option Nat) (now : Nat)
    (h : Hash) (s' : RepoState)
    (hwf : Hash.wf (s.root.getD Hash.zero))
    (hcm : commit_model hashFn s message a0 a1 c0 c1 timestamp now = .ok (h, s')) :
    s'.head = h ∧ s'.root = s.root ∧
      get_commit_root s' s'.head = .ok (some (s.root.getD Hash.zero)) := by
  rw [commit_model] at hcm
  split at hcm
  · cases hcm
  · rename_i hguard
    simp only [Bool.or_eq_true, not_or] at hguard
    have ha0 := containsChar_false _ a0 hguard.1.1.1.1.1.1.1.1.1.1.1
    have ha1 := containsChar_false _ a1 hguard.1.1.1.1.1.1.1.1.2
    have hc0 := containsChar_false _ c0 hguard.1.1.1.1.1.2
    have hc1 := containsChar_false _ c1 hguard.1.1.2
    split at hcm
    · cases hcm
    · cases hcm
    · rename_i s₁ hs₁
      have hs₁root : s₁.root = s.root := by
        rcases hroot : s.root with _ | r
        · rw [hroot] at hs₁
          have hs₁x : Outcome.ok s = Outcome.ok s₁ := hs₁
          cases hs₁x
          exact hroot
        · rw [hroot] at hs₁
          have hs₁x : (match get_commit_root s s.head with
              | .error _ => Outcome.crash
              | .ok hr => if some r ≠ hr then commit_object hashFn s r else Outcome.ok s)
              = Outcome.ok s₁ := hs₁
          rcases hgr : get_commit_root s s.head with e | hr
          · rw [hgr] at hs₁x
            cases hs₁x
          · rw [hgr] at hs₁x
            have hs₁y : (if some r ≠ hr then commit_object hashFn s r else Outcome.ok s)
                = Outcome.ok s₁ := hs₁x
            by_cases hif : some r ≠ hr
            · rw [if_pos hif] at hs₁y
              rw [commit_object_root hashFn s r s₁ hs₁y]
              exact hroot
            · rw [if_neg hif] at hs₁y
              cases hs₁y
              exact hroot
      cases hcm
      have hwf1 : Hash.wf (s₁.root.getD Hash.zero) := by rw [hs₁root]; exact hwf
      refine ⟨rfl, hs₁root, ?_⟩
      rw [← hs₁root]
      show get_commit_root
          { s₁ with
            objects := (os_insert hashFn s₁.objects .commit
              (utf8Encode (commit_text (s₁.root.getD Hash.zero) s₁.head a0 a1 c0 c1
                (timestamp.getD now) message)) none).2,
            head := (os_insert hashFn s₁.objects .commit
              (utf8Encode (commit_text (s₁.root.getD Hash.zero) s₁.head a0 a1 c0 c1
                (timestamp.getD now) message)) none).1 }
          (os_insert hashFn s₁.objects .commit
            (utf8Encode (commit_text (s₁.root.getD Hash.zero) s₁.head a0 a1 c0 c1
              (timestamp.getD now) message)) none).1
          = .ok (some (s₁.root.getD Hash.zero))
      rw [get_commit_root_after_insert]
      rw [get_commit_field_hash_commit (s₁.root.getD Hash.zero) s₁.head a0 a1 c0 c1
          (timestamp.getD now) message hwf1 ha0 ha1 hc0 hc1]

def c9Repo : RepoState := { emptyRepo with root := some (1 :: List.replicate 19 0) }

def c9Pair : Hash × RepoState :=
  match commit_model constHashFn c9Repo "m".toList "a".toList "ab".toList "c".toList
      "cd".toList (some 5) 0 with
  | .ok p => p
  | _ => (Hash.zero, emptyRepo)

/-- Witness for commit_head_tree_eq_root: a concrete successful commit
on a repository whose root is a staged tree hash, with the invariant
checked on the resulting state. -/
theorem commit_head_tree_eq_root_w :
    Hash.wf (c9Repo.root.getD Hash.zero) ∧
    ((c9Pair.2.head = c9Pair.1 ∧ c9Pair.2.root = c9Repo.root ∧
      get_commit_root c9Pair.2 c9Pair.2.head = .ok (some (c9Repo.root.getD Hash.zero)))) :=
  ⟨by decide,
    commit_head_tree_eq_root constHashFn c9Repo "m".toList "a".toList "ab".toList
      "c".toList "cd".toList (some 5) 0 c9Pair.1 c9Pair.2 (by decide) (by rfl)⟩

end RustGit
